import Mathlib

/-!
Verification development for the streaming projection-and-reconciliation
engine of `populate_elasticsearch.py` (openphacts-irs).

The Python source is shallowly embedded below.  Python dicts are modelled
as insertion-ordered association lists (`List (String × α)`) together with
`alookup` (read) and `dictSet` (assignment), which is exactly the
observable behaviour of a Python 3 dict: assignment to an existing key
replaces the value in place keeping its position, assignment to a fresh
key appends at the end.  Fallible Python code (KeyError, AttributeError)
is modelled with `Option`/`Except`.  The opaque uuid functions of the
source (`uuid.uuid4`, `uuid.uuid5`) are modelled as injective tagged
string functions, which captures exactly the properties the program
relies on (determinism of `uuid5`, global freshness of `uuid4`).
Where Python iterates a `set` (whose iteration order is unspecified) the
model fixes a deterministic order and the theorems below are stated so
that they do not depend on that choice.

The file has two parts: all definitions first, then all theorems.
-/

namespace PopES

/-! # Part 1 — Definitions -/

/-- Python dict read `d.get(k)` / membership `k in d` over an
insertion-ordered association list. -/
def alookup {α : Type} : List (String × α) → String → Option α
  | [], _ => none
  | (k', v) :: rest, k => if k' = k then some v else alookup rest k

/-- Python dict assignment `d[k] = v`: replace in place (keeping the key's
position) when the key is present, append at the end otherwise. -/
def dictSet {α : Type} : List (String × α) → String → α → List (String × α)
  | [], k, v => [(k, v)]
  | (k', v') :: rest, k, v =>
      if k' = k then (k', v) :: rest else (k', v') :: dictSet rest k v

/-! ## SlidingWindowDictionary (the RecencyCache)

```python
class SlidingWindowDictionary(collections.OrderedDict):
    def __init__(self, max_size=1000):
        self.max_size = max_size
        super().__init__()
    def __setitem__(self, key, value):
        while (len(self) >= self.max_size):
            self.popitem(last=False)
        super().__setitem__(key, value)
```
`popitem(last=False)` removes the oldest (front) entry.  An
`OrderedDict` assignment to an existing key keeps the key's position
(no recency refresh); reads never mutate. -/

/-- The eviction loop `while len(self) >= self.max_size: self.popitem(last=False)`.
(With `max_size = 0` and an empty dict the Python loop would raise
`KeyError`; the model returns `[]`, a case never reached in the program,
whose capacity is 1000.) -/
def evictLoop {α : Type} (max_size : Nat) : List α → List α
  | [] => []
  | x :: xs => if max_size ≤ xs.length + 1 then evictLoop max_size xs else x :: xs

/-- `SlidingWindowDictionary.__setitem__`. -/
def swSet {α : Type} (max_size : Nat) (d : List (String × α)) (k : String) (v : α) :
    List (String × α) :=
  dictSet (evictLoop max_size d) k v

/-! ### Client operations against the cache

`Indexer.binding_as_doc` only ever touches the cache through
`self.cache.get(key)` (an `OrderedDict` read, which does not mutate) and
`self.cache[key] = value` (the `__setitem__` above).  A trace of such
operations: -/

inductive CacheOp (α : Type) where
  | set (k : String) (v : α)
  | get (k : String)
deriving DecidableEq, Repr

def CacheOp.isSet {α : Type} : CacheOp α → Bool
  | .set _ _ => true
  | .get _ => false

/-- Effect of one client operation on the dictionary: a read leaves it
untouched, a write goes through `SlidingWindowDictionary.__setitem__`. -/
def swStep {α : Type} (max_size : Nat) (d : List (String × α)) : CacheOp α → List (String × α)
  | .set k v => swSet max_size d k v
  | .get _ => d

def swRun {α : Type} (max_size : Nat) (d : List (String × α)) : List (CacheOp α) → List (String × α)
  | [] => d
  | op :: ops => swRun max_size (swStep max_size d op) ops

/-- The entries popped by the eviction loop of one `__setitem__` call
(always a front segment of the dictionary). -/
def evictedBy {α : Type} (max_size : Nat) (l : List α) : List α :=
  l.take (l.length - (evictLoop max_size l).length)

/-! ### Ghost instrumentation: entry timestamps

To express "the entry evicted on overflow is the least-recently-inserted
one" we run the same code over entries carrying a ghost field `tin`, the
step index at which the key last entered the dictionary.  `tStrip`
projects the instrumented run back onto the source model (`swRun`). -/

structure TEntry (α : Type) where
  key : String
  val : α
  tin : Nat
deriving DecidableEq, Repr

def tStrip {α : Type} (l : List (TEntry α)) : List (String × α) :=
  l.map (fun e => (e.key, e.val))

/-- `OrderedDict.__setitem__` over instrumented entries: replacing the
value of a resident key keeps its position and entry time, a fresh key is
appended with the current clock. -/
def tDictSet {α : Type} (clock : Nat) : List (TEntry α) → String → α → List (TEntry α)
  | [], k, v => [⟨k, v, clock⟩]
  | e :: rest, k, v =>
      if e.key = k then ⟨e.key, v, e.tin⟩ :: rest else e :: tDictSet clock rest k v

def tStep {α : Type} (max_size : Nat) (s : List (TEntry α) × Nat) (op : CacheOp α) :
    List (TEntry α) × Nat :=
  match op with
  | .set k v => (tDictSet s.2 (evictLoop max_size s.1) k v, s.2 + 1)
  | .get _ => (s.1, s.2 + 1)

def tRun {α : Type} (max_size : Nat) (s : List (TEntry α) × Nat) :
    List (CacheOp α) → List (TEntry α) × Nat
  | [] => s
  | op :: ops => tRun max_size (tStep max_size s op) ops

/-- Invariant of the instrumented run: all entry times lie below the
clock and the dictionary is ordered by strictly increasing entry time. -/
def TInv {α : Type} (s : List (TEntry α) × Nat) : Prop :=
  (∀ e ∈ s.1, e.tin < s.2) ∧ (s.1.map TEntry.tin).Pairwise (· < ·)

/-! ## The merge engine

```python
def merge_bodies(self, old, new):
    body = {}
    keys = set(old.keys())
    keys.update(new.keys())
    for k in keys:
        if k == "@id":
            body[k] = old[k]
            continue
        old_v = old.get(k, [])
        new_v = new.get(k, set())
        old_v.extend(list(set(new_v) - set(old_v)))
        body[k] = old_v
    return body
```
Document values: the `@id` key holds a scalar string, every other key a
list of value strings. -/

inductive PyVal where
  | vstr (s : String)
  | vlist (l : List String)
deriving DecidableEq, Repr

abbrev Doc := List (String × PyVal)

/-- The multi-value list stored under key `k` (an absent key, or the
scalar at `@id`, reads as the empty list; only used at non-`@id` keys). -/
def listAt (d : Doc) (k : String) : List String :=
  match alookup d k with
  | some (.vlist l) => l
  | _ => []

/-- `keys = set(old.keys()); keys.update(new.keys())` — Python set
iteration order is unspecified; the model fixes the deterministic order
"old's keys first, then new's unseen keys", first occurrences only.  The
theorems below speak about `alookup` results and therefore do not depend
on this choice. -/
def mergeKeys (old new : Doc) : List String :=
  (old.map Prod.fst).dedup ++
    ((new.map Prod.fst).dedup.filter (fun k => !((old.map Prod.fst).contains k)))

/-- One key of `Indexer.merge_bodies`.  `none` models the Python crashes:
`old[k]` raises KeyError when `new` has an `@id` key that `old` lacks, and
`old_v.extend` raises AttributeError when a non-`@id` value is a scalar
string (which never happens on documents the program builds; likewise a
scalar in `new` would be iterated as characters by `set(...)`, also
modelled as a failure since it never occurs).  The appended tail
`list(set(new_v) - set(old_v))` has unspecified order in Python; the model
uses the (deduplicated) order of `new_v`. -/
def mergeVal (old new : Doc) (k : String) : Option (String × PyVal) :=
  if k = "@id" then
    (alookup old k).map (fun v => (k, v))
  else
    match alookup old k, alookup new k with
    | some (.vstr _), _ => none
    | _, some (.vstr _) => none
    | o, n =>
        let old_v := match o with | some (.vlist l) => l | _ => []
        let new_v := match n with | some (.vlist l) => l | _ => []
        some (k, .vlist (old_v ++ (new_v.filter (fun x => !(old_v.contains x))).dedup))

def mergeVals (old new : Doc) : List String → Option Doc
  | [] => some []
  | k :: ks =>
      match mergeVal old new k, mergeVals old new ks with
      | some e, some rest => some (e :: rest)
      | _, _ => none

/-- `Indexer.merge_bodies`. -/
def merge_bodies (old new : Doc) : Option Doc :=
  mergeVals old new (mergeKeys old new)

/-! ## The query builder -/

/-- SPARQL variable name for the resource (`ID = "id"`). -/
def ID : String := "id"

/-- SPARQL variable name for the rdf:type on subclasses (`TYPE = "type"`). -/
def TYPE : String := "type"

/-- A configured property: either a shorthand qname string or a
dict-based spec `{sparql, variable, jsonld, required?}` (the `required`
key defaults to false via `prop.get("required", False)`). -/
inductive PropConf where
  | short (s : String)
  | full (sparql varname jsonld : String) (required : Bool)
deriving DecidableEq, Repr

/-- An expanded property dict as stored in `Indexer.properties`.  A
shorthand property expands to `{sparql: p, variable: v, jsonld: v}` with
no `required` key (hence required = false). -/
structure PropRec where
  sparql : String
  varname : String
  jsonld : String
  required : Bool
deriving DecidableEq, Repr

/-- `is_property_required(prop) = bool(prop.get("required", False))`. -/
def is_property_required (p : PropRec) : Bool := p.required

structure SessionConf where
  prefixes : List (String × String)
  common_properties : List PropConf
  limit : Option String
deriving DecidableEq, Repr

/-- Per (index, doc_type) configuration (`self.conf` of an `Indexer`).
`subclasses` holds the YAML value of the `subclasses` key as a string;
an absent key is `none`, and Python falsiness of `""` is modelled
explicitly. -/
structure TypeConf where
  rdf_type : Option String
  subclasses : Option String
  graph : Option String
  properties : List PropConf
deriving DecidableEq, Repr

/-- `s.split(":")` for the one-character separator `":"` (structurally
recursive so that concrete queries evaluate inside the kernel). -/
def splitColsAux : List Char → List Char → List String
  | [], acc => [String.mk acc.reverse]
  | c :: cs, acc =>
      if c = ':' then String.mk acc.reverse :: splitColsAux cs []
      else splitColsAux cs (c :: acc)

def pySplitColon (s : String) : List String := splitColsAux s.data []

/-- `prop.split(":")[-1]`. -/
def shortName (prop : String) : String := (pySplitColon prop).getLastD ""

/-- `Session.expand_qname` (`":" in p` is char containment; `split(":", 1)`
keeps everything after the first colon as the rest). -/
def expand_qname (conf : SessionConf) (p : String) : Except String String :=
  if p.data.contains ':' = false then Except.error ("Invalid property, no prefix: " ++ p)
  else
    let parts := pySplitColon p
    let pre := parts.headD ""
    match alookup conf.prefixes pre with
    | none => Except.error ("Unknown prefix: " ++ pre)
    | some base => Except.ok (base ++ String.intercalate ":" parts.tail)

/-- `str(uuid.uuid5(uuid.NAMESPACE_URL, s)).replace("-", "")`:
a deterministic content hash rendered as 32 hex chars, modelled as an
injective tagged function of its input. -/
def uuid5_hex (s : String) : String := "uuid5x" ++ s

/-- `Indexer.variable_for_property_name`: the short name (last `:`
component) if it is still free, otherwise a uuid5-derived fallback name
(after printing a warning — I/O, not modelled). -/
def variable_for_property_name (conf : SessionConf) (props : List (String × PropRec))
    (prop : String) : Except String String :=
  if (alookup props (shortName prop)).isNone then Except.ok (shortName prop)
  else (expand_qname conf prop).map uuid5_hex

/-- `Indexer.expand_property`: expands a shorthand into a dict, then
registers the dict under its variable name, raising on a duplicate. -/
def register_property (props : List (String × PropRec)) (pr : PropRec) :
    Except String (PropRec × List (String × PropRec)) :=
  if (alookup props pr.varname).isSome then
    Except.error ("Duplicate property name " ++ pr.varname)
  else
    Except.ok (pr, props ++ [(pr.varname, pr)])

def expand_property (conf : SessionConf) (props : List (String × PropRec)) (p : PropConf) :
    Except String (PropRec × List (String × PropRec)) :=
  match p with
  | .short s =>
      match variable_for_property_name conf props s with
      | .error e => .error e
      | .ok v => register_property props ⟨s, v, v, false⟩
  | .full sq v j r => register_property props ⟨sq, v, j, r⟩

/-- `map(self.expand_property, ...)` threaded through `self.properties`. -/
def expand_all (conf : SessionConf) (props : List (String × PropRec)) :
    List PropConf → Except String (List PropRec × List (String × PropRec))
  | [] => Except.ok ([], props)
  | p :: ps =>
      match expand_property conf props p with
      | .error e => .error e
      | .ok (pr, props') =>
          match expand_all conf props' ps with
          | .error e => .error e
          | .ok (rest, props'') => .ok (pr :: rest, props'')

/-- `properties.sort(key=negate(is_property_required))`: CPython
`list.sort` is stable and the key is two-valued (`False` sorts before
`True`, and `negate` flips the flag), so the call is exactly the stable
partition putting required properties first. -/
def sort_properties (l : List PropRec) : List PropRec :=
  l.filter (fun p => is_property_required p) ++ l.filter (fun p => !(is_property_required p))

/-- Python `str.strip()` (ASCII whitespace), structurally recursive. -/
def isPySpace (c : Char) : Bool :=
  c = ' ' || c = '\t' || c = '\n' || c = '\r' || c = '\x0b' || c = '\x0c'

def pyStrip (s : String) : String :=
  String.mk (((s.data.dropWhile isPySpace).reverse.dropWhile isPySpace).reverse)

/-- `Indexer.sparql_optional` (`sparql.strip()` is `pyStrip`). -/
def sparql_optional (s : String) : String :=
  "    OPTIONAL \x7b " ++ pyStrip s ++ " \x7d"

/-- `Indexer.sparql_property`. -/
def sparql_property (prop : PropRec) : String :=
  let s := "    ?" ++ ID ++ " " ++ prop.sparql ++ " ?" ++ prop.varname ++ " ."
  if !(is_property_required prop) then sparql_optional s else s

/-- `Session.sparql_prefixes`. -/
def sparql_prefixes (conf : SessionConf) : String :=
  String.intercalate "\n"
    (conf.prefixes.map (fun pu => "PREFIX " ++ pu.1 ++ ": <" ++ pu.2 ++ ">"))

/-- The `UNION { ... }` block emitted when a `subclasses` key is truthy:
`subclasses == "owl"` adds an `owl:Class` membership check and a
transitive (`rdfs:subClassOf+`) pattern, any other truthy value emits the
direct (single-level) subclass edge. -/
def subclassLines (rdf_type : String) (subclasses : Option String) : List String :=
  match subclasses with
  | none => []
  | some sc =>
      if sc = "" then []
      else
        ["   UNION \x7b", "     ?" ++ ID ++ " a ?subClass . "] ++
          (if sc = "owl" then
            ["     ?subClass a owl:Class . ",
             "     ?subClass rdfs:subClassOf+ " ++ rdf_type ++ " ."]
          else
            ["     ?subClass rdfs:subClassOf " ++ rdf_type ++ " ."]) ++
          ["   \x7d"]

/-- The type-constraint lines of `Indexer.sparql` (nothing without a
`type` key). -/
def typeLines (tc : TypeConf) : List String :=
  match tc.rdf_type with
  | none => []
  | some rdf_type =>
      ("   \x7b ?" ++ ID ++ " a " ++ rdf_type ++ " . \x7d") :: subclassLines rdf_type tc.subclasses

/-- `Indexer.sparql`, as the list of appended lines (the source returns
`"\n".join(sparql)`) together with the `Indexer.properties` table built
while expanding the configured properties.  Errors are the `raise`d
configuration exceptions. -/
def sparql (sconf : SessionConf) (tc : TypeConf) (index doc_type : String) :
    Except String (List String × List (String × PropRec)) :=
  match expand_all sconf [] (sconf.common_properties ++ tc.properties) with
  | .error e => .error e
  | .ok (properties, props) =>
      if properties = [] then
        Except.error ("No properties configured for " ++ index ++ " " ++ doc_type)
      else
        let head := [sparql_prefixes sconf, "SELECT *", "WHERE \x7b"]
        let graphOpen := match tc.graph with
          | some g => [" GRAPH <" ++ g ++ "> \x7b"]
          | none => []
        let props_sparql := (sort_properties properties).map sparql_property
        let graphClose := match tc.graph with
          | some _ => [" \x7d"]
          | none => []
        let limitLines := match sconf.limit with
          | some lim => ["LIMIT " ++ lim]
          | none => []
        Except.ok (head ++ graphOpen ++ typeLines tc ++ props_sparql ++ graphClose ++ ["\x7d"]
            ++ limitLines, props)

/-- The query text: `"\n".join(sparql)`. -/
def sparqlText (sconf : SessionConf) (tc : TypeConf) (index doc_type : String) :
    Except String String :=
  (sparql sconf tc index doc_type).map (fun r => String.intercalate "\n" r.1)

/-- The line list of a successful query build (empty on error); used to
state concrete facts about generated queries. -/
def okLines (e : Except String (List String × List (String × PropRec))) : List String :=
  match e with
  | .ok r => r.1
  | .error _ => []

/-! ## Row projection (`Indexer.binding_as_doc` and helpers) -/

/-- One SPARQL JSON binding value `{type: ..., value: ...}`; the `value`
key may be absent. -/
structure BindingV where
  btype : String
  bvalue : Option String
deriving DecidableEq, Repr

/-- A result row: a mapping from variable name to a binding value, where
a bound variable may carry an explicit `None` placeholder. -/
abbrev Row := List (String × Option BindingV)

def hexDigit (c : Char) : Option Nat :=
  if '0' ≤ c ∧ c ≤ '9' then some (c.toNat - '0'.toNat)
  else if 'a' ≤ c ∧ c ≤ 'f' then some (c.toNat - 'a'.toNat + 10)
  else if 'A' ≤ c ∧ c ≤ 'F' then some (c.toNat - 'A'.toNat + 10)
  else none

/-- `urllib.parse.unquote`, modelled over single code points: a `%hh`
escape with two hex digits decodes to the character with that code, an
invalid escape is left verbatim.  (Python additionally reassembles
multi-byte UTF-8 escape runs; no claim depends on non-ASCII escapes.) -/
def pyUnquoteAux : List Char → List Char
  | [] => []
  | c :: rest =>
      if c = '%' then
        match rest with
        | [] => [c]
        | [a] => [c, a]
        | a :: b :: rest' =>
            match hexDigit a, hexDigit b with
            | some x, some y => Char.ofNat (16 * x + y) :: pyUnquoteAux rest'
            | _, _ => c :: pyUnquoteAux (a :: b :: rest')
      else c :: pyUnquoteAux rest

def pyUnquote (s : String) : String := String.mk (pyUnquoteAux s.data)

/-- `Indexer.unescape` (the `result["value"]` read raises KeyError when
the key is absent, hence `Option`). -/
def unescape (result : BindingV) : Option String :=
  result.bvalue.map (fun value => if result.btype = "uri" then pyUnquote value else value)

/-- The mutable per-run state of an `Indexer`: the `indexed` seen-set,
the `cache` (SlidingWindowDictionary), the `blanknodes` map, the fresh
uuid4 supply (ghost counter backing the injective generator), and the
processed-row counter. -/
structure IndexerState where
  indexed : List String
  cache : List (String × Doc)
  blanknodes : List (String × String)
  bnFresh : Nat
  count : Nat
deriving DecidableEq, Repr

def initState : IndexerState := ⟨[], [], [], 0, 0⟩

/-- The per-run configuration an `Indexer` carries into projection. -/
structure IndexerConf where
  index : String
  doc_type : String
  rdf_type : Option String
  props : List (String × PropRec)
  max_size : Nat
deriving DecidableEq, Repr

/-- `uuid.uuid4().urn`: a globally fresh random urn.  Modelled as an
injective generator over a run-local ghost counter (any injective
enumeration is an equally faithful model of uuid4's global uniqueness;
the unary tail keeps injectivity elementary). -/
def uuid4urn (n : Nat) : String := "urn:uuid:" ++ String.mk (List.replicate n '*')

/-- `Indexer.skolemize`: the stored uuid's urn if the raw blank-node key
was seen, otherwise a fresh uuid recorded under the key. -/
def skolemize (st : IndexerState) (bnode : String) : String × IndexerState :=
  match alookup st.blanknodes bnode with
  | some u => (u, st)
  | none =>
      let u := uuid4urn st.bnFresh
      (u, { st with blanknodes := st.blanknodes ++ [(bnode, u)], bnFresh := st.bnFresh + 1 })

/-- `uuid.uuid5(uuid.NAMESPACE_URL, uri)` as used for the seen-set and
cache key: a deterministic content hash, modelled as an injective tagged
function. -/
def docUuid (uri : String) : String := "uuid5:" ++ uri

/-- A sequence of blank-node resolutions (`skolemize` calls), used to
state run-wide determinism of the BlankNodeMap. -/
def skolRun (st : IndexerState) : List String → IndexerState
  | [] => st
  | k :: ks => skolRun (skolemize st k).2 ks

/-- Well-formedness of the blank-node state: stored synthetic identifiers
are pairwise distinct and all drawn from counter values below the current
fresh counter.  Holds for the initial state and is preserved by
`skolemize`. -/
def BnWF (st : IndexerState) : Prop :=
  (st.blanknodes.map Prod.snd).Nodup ∧
  ∀ p ∈ st.blanknodes, ∃ n, n < st.bnFresh ∧ p.2 = uuid4urn n

/-- The six script lines `Indexer.update_script_for` emits for one
property key: initialize the field to a one-element collection when
absent, else append the new value only if not already present. -/
def scriptFor (jsonld var : String) : List String :=
  ["if (! ctx._source.containsKey(\x27" ++ jsonld ++ "\x27)) \x7b",
   "  ctx._source[\x27" ++ jsonld ++ "\x27] = [" ++ var ++ "] ",
   "\x7d else ",
   "if (! ctx._source[\x27" ++ jsonld ++ "\x27].contains(" ++ var ++ ")) \x7b",
   "  ctx._source[\x27" ++ jsonld ++ "\x27] += " ++ var,
   "\x7d"]

/-- `var.startswith("@")`: a single-character prefix test. -/
def startsWithAtSign (var : String) : Bool := var.data.head? = some '@'

/-- The loop of `Indexer.update_script_for` over the body's keys in
insertion order: skip keys starting with `"@"`, look the others up in
`self.properties` (KeyError — `none` — when absent) and emit `scriptFor`. -/
def scriptLines (props : List (String × PropRec)) : List String → Option (List String)
  | [] => some []
  | var :: vars =>
      if startsWithAtSign var then scriptLines props vars
      else
        match alookup props var with
        | none => none
        | some prop =>
            match scriptLines props vars with
            | none => none
            | some rest => some (scriptFor prop.jsonld var ++ rest)

/-- `Indexer.update_script_for`. -/
def update_script_for (props : List (String × PropRec)) (body : Doc) : Option String :=
  (scriptLines props (body.map Prod.fst)).map (String.intercalate "\n")

/-- The `for var in node:` loop of `binding_as_doc`: skip the reserved
`id`/`type` variables, map `subClass` to the fixed key `rdfs:subClassOf`,
look every other variable up in `self.properties` (KeyError — `none` —
when unconfigured); a `None` binding or missing value yields an empty
property and a null parameter, a bound value a one-element list. -/
def varLoop (props : List (String × PropRec)) :
    Row → Doc → List (String × Option String) → Option (Doc × List (String × Option String))
  | [], body, params => some (body, params)
  | (var, b) :: rest, body, params =>
      if var = ID ∨ var = TYPE then varLoop props rest body params
      else
        match (if var = "subClass" then some "rdfs:subClassOf"
               else (alookup props var).map PropRec.jsonld) with
        | none => none
        | some jsonld =>
          match b with
          | none => varLoop props rest (dictSet body jsonld (.vlist [])) (dictSet params var none)
          | some bv =>
            match bv.bvalue with
            | none =>
                varLoop props rest (dictSet body jsonld (.vlist [])) (dictSet params var none)
            | some value =>
                varLoop props rest (dictSet body jsonld (.vlist [value]))
                  (dictSet params var (some value))

/-- The `@type` list and `__type` parameter: the configured static type
(if any) plus the dynamically bound `type` variable (whose `value` read
crashes on a `None` binding — `none`). -/
def typesOf (cfg : IndexerConf) (node : Row) :
    Option (List String × List (String × Option String)) :=
  let types0 := match cfg.rdf_type with | some t => [t] | none => []
  match alookup node TYPE with
  | none => some (types0, [])
  | some none => none
  | some (some tb) =>
      match tb.bvalue with
      | none => none
      | some tv => some (types0 ++ [tv], [("__type", some tv)])

/-- Outcome of projecting one row: the entity key, the partial document,
the flat parameter map, and the state after blank-node resolution. -/
structure Projected where
  uri : String
  body : Doc
  params : List (String × Option String)
  st : IndexerState
deriving DecidableEq, Repr

/-- The projection part of `Indexer.binding_as_doc` (everything before
the reconciliation dispatch).  The source increments `self.count` first
and may print statistics (I/O, not modelled); on a row-shape crash Python
would still have bumped the counter — the model drops the bump in that
case, which nothing observes. -/
def projectBody (cfg : IndexerConf) (st : IndexerState) (node : Row) : Option Projected :=
  match alookup node ID with
  | some (some idb) =>
      match (if idb.btype = "uri" then
               (unescape idb).map (fun u => (u, st))
             else
               idb.bvalue.map (skolemize st)) with
      | none => none
      | some (uri, st1) =>
          match typesOf cfg node with
          | none => none
          | some (types1, params0) =>
              let body0 : Doc := [("@id", .vstr uri)]
              let body1 := if types1 ≠ [] then dictSet body0 "@type" (.vlist types1) else body0
              match varLoop cfg.props node body1 params0 with
              | none => none
              | some (body2, params2) =>
                  some ⟨uri, body2, params2, { st1 with count := st1.count + 1 }⟩
  | _ => none

/-- Shape invariant of every document the projector builds and the merge
engine returns: the `@id` key is present, every other key holds a list.
(This is the spec's Document invariant; it is what makes `merge_bodies`
total on real documents.) -/
def WfDoc (d : Doc) : Prop :=
  (alookup d "@id").isSome ∧
  ∀ k v, k ≠ "@id" → alookup d k = some v → ∃ l, v = PyVal.vlist l

/-- An ElasticSearch bulk message: a plain index action (full document
under `_source` — a *Replace*) or an update action (script + params +
upsert fallback body — an *Upsert*). -/
inductive Msg where
  | index (idx ty id : String) (source : Doc)
  | update (idx ty id : String) (script : String)
      (params : List (String × Option String)) (upsert : Doc)
deriving DecidableEq, Repr

/-- The upsert arm shared by the two cache-miss paths of the source (`None`
from `cache.get` and a falsy cached dict). -/
def upsertMsg (cfg : IndexerConf) (st1 : IndexerState) (pj : Projected) :
    Option (Msg × IndexerState) :=
  match update_script_for cfg.props pj.body with
  | none => none
  | some script =>
      some (.update cfg.index cfg.doc_type pj.uri script pj.params pj.body, st1)

/-- `Indexer.binding_as_doc`: project the row, then dispatch on the
reconciliation state exactly as the source does — unseen key: mark seen,
cache the body, emit a replace; seen and cache-resident (a truthy cached
dict): merge, refresh the cache, emit a replace; seen but evicted (or a
falsy cache entry): emit a server-side update with upsert fallback. -/
def binding_as_doc (cfg : IndexerConf) (st : IndexerState) (node : Row) :
    Option (Msg × IndexerState) :=
  match projectBody cfg st node with
  | none => none
  | some pj =>
      let st1 := pj.st
      let du := docUuid pj.uri
      if st1.indexed.contains du = false then
        let st2 := { st1 with indexed := st1.indexed ++ [du],
                              cache := swSet cfg.max_size st1.cache du pj.body }
        some (.index cfg.index cfg.doc_type pj.uri pj.body, st2)
      else
        match alookup st1.cache du with
        | some cached =>
            if cached ≠ [] then
              match merge_bodies cached pj.body with
              | none => none
              | some merged =>
                  let st2 := { st1 with cache := swSet cfg.max_size st1.cache du merged }
                  some (.index cfg.index cfg.doc_type pj.uri merged, st2)
            else upsertMsg cfg st1 pj
        | none => upsertMsg cfg st1 pj

/-- The driver loop of `Indexer.json_reader`: process rows in order,
collecting the emitted bulk messages. -/
def processRows (cfg : IndexerConf) (st : IndexerState) :
    List Row → Option (List Msg × IndexerState)
  | [] => some ([], st)
  | r :: rs =>
      match binding_as_doc cfg st r with
      | none => none
      | some (m, st') =>
          match processRows cfg st' rs with
          | none => none
          | some (ms, st'') => some (m :: ms, st'')

/-! # Part 2 — Theorems -/

@[simp] theorem alookup_nil {α : Type} (k : String) :
    alookup ([] : List (String × α)) k = none := rfl

@[simp] theorem alookup_cons {α : Type} (k' k : String) (v : α) (rest : List (String × α)) :
    alookup ((k', v) :: rest) k = if k' = k then some v else alookup rest k := rfl

theorem alookup_dictSet {α : Type} (d : List (String × α)) (k k' : String) (v : α) :
    alookup (dictSet d k v) k' = if k = k' then some v else alookup d k' := by
  induction d with
  | nil =>
      simp [dictSet, alookup]
  | cons hd tl ih =>
      obtain ⟨k₀, v₀⟩ := hd
      by_cases h₀ : k₀ = k
      · subst h₀
        by_cases h₁ : k₀ = k'
        · subst h₁; simp [dictSet, alookup]
        · simp [dictSet, alookup, h₁, if_neg (Ne.symm h₁)]
      · by_cases h₁ : k₀ = k'
        · subst h₁
          have : k ≠ k₀ := fun h => h₀ h.symm
          simp [dictSet, alookup, h₀, this]
        · simp [dictSet, alookup, h₀, h₁, ih]

theorem dictSet_ne_nil {α : Type} (d : List (String × α)) (k : String) (v : α) :
    dictSet d k v ≠ [] := by
  cases d with
  | nil => simp [dictSet]
  | cons hd tl =>
      obtain ⟨k₀, v₀⟩ := hd
      by_cases h : k₀ = k <;> simp [dictSet, h]

theorem evictLoop_suffix {α : Type} (max_size : Nat) (l : List α) :
    (evictLoop max_size l) <:+ l := by
  induction l with
  | nil => simp [evictLoop]
  | cons x xs ih =>
      by_cases h : max_size ≤ xs.length + 1
      · simp only [evictLoop, if_pos h]
        exact ih.trans (List.suffix_cons x xs)
      · simp [evictLoop, if_neg h]

theorem evictLoop_length_lt {α : Type} (max_size : Nat) (l : List α)
    (h : 1 ≤ max_size) : (evictLoop max_size l).length < max_size := by
  induction l with
  | nil => simpa [evictLoop] using h
  | cons x xs ih =>
      by_cases hc : max_size ≤ xs.length + 1
      · simpa [evictLoop, if_pos hc] using ih
      · simp only [evictLoop, if_neg hc, List.length_cons]
        omega

theorem dictSet_length {α : Type} (d : List (String × α)) (k : String) (v : α) :
    (dictSet d k v).length ≤ d.length + 1 := by
  induction d with
  | nil => simp [dictSet]
  | cons hd tl ih =>
      obtain ⟨k₀, v₀⟩ := hd
      by_cases h : k₀ = k
      · simp only [dictSet, if_pos h, List.length_cons]
        omega
      · simp only [dictSet, if_neg h, List.length_cons]
        omega

theorem swSet_length {α : Type} (max_size : Nat) (d : List (String × α))
    (k : String) (v : α) (h : 1 ≤ max_size) :
    (swSet max_size d k v).length ≤ max_size := by
  have h₁ := evictLoop_length_lt max_size d h
  have h₂ := dictSet_length (evictLoop max_size d) k v
  simp only [swSet]
  omega

theorem tStrip_length {α : Type} (l : List (TEntry α)) :
    (tStrip l).length = l.length := by
  simp [tStrip]

theorem tStrip_evictLoop {α : Type} (max_size : Nat) (l : List (TEntry α)) :
    tStrip (evictLoop max_size l) = evictLoop max_size (tStrip l) := by
  induction l with
  | nil => simp [evictLoop, tStrip]
  | cons e rest ih =>
      by_cases h : max_size ≤ rest.length + 1
      · have h' : max_size ≤ (tStrip rest).length + 1 := by
          simpa [tStrip_length] using h
        simp only [evictLoop, tStrip, List.map_cons]
        rw [if_pos (by simpa [tStrip_length] using h), if_pos (by simpa [tStrip] using h')]
        simpa [tStrip] using ih
      · simp only [evictLoop, tStrip, List.map_cons]
        rw [if_neg (by simpa using h), if_neg (by simpa [tStrip_length] using h)]
        simp [tStrip]

theorem tStrip_tDictSet {α : Type} (clock : Nat) (l : List (TEntry α)) (k : String) (v : α) :
    tStrip (tDictSet clock l k v) = dictSet (tStrip l) k v := by
  induction l with
  | nil => simp [tDictSet, tStrip, dictSet]
  | cons e rest ih =>
      by_cases h : e.key = k
      · simp [tDictSet, tStrip, dictSet, h]
      · have ih' := ih
        simp only [tStrip] at ih'
        simp [tDictSet, tStrip, dictSet, h, ih']

theorem tStrip_tRun {α : Type} (max_size : Nat) (s : List (TEntry α) × Nat)
    (ops : List (CacheOp α)) :
    tStrip (tRun max_size s ops).1 = swRun max_size (tStrip s.1) ops := by
  induction ops generalizing s with
  | nil => rfl
  | cons op ops ih =>
      cases op with
      | set k v =>
          rw [tRun, swRun, ih]
          simp [tStep, swStep, swSet, tStrip_tDictSet, tStrip_evictLoop]
      | get k =>
          rw [tRun, swRun, ih]
          simp [tStep, swStep]

theorem tDictSet_map_tin_of_mem {α : Type} (clock : Nat) (l : List (TEntry α))
    (k : String) (v : α) (h : ∃ e ∈ l, e.key = k) :
    (tDictSet clock l k v).map TEntry.tin = l.map TEntry.tin := by
  induction l with
  | nil => simp at h
  | cons e rest ih =>
      by_cases hk : e.key = k
      · simp [tDictSet, hk]
      · obtain ⟨e', he', hke'⟩ := h
        rcases List.mem_cons.mp he' with he' | he'
        · exact absurd (he' ▸ hke' : e.key = k) hk
        · simp [tDictSet, hk, ih ⟨e', he', hke'⟩]

theorem tDictSet_eq_append {α : Type} (clock : Nat) (l : List (TEntry α))
    (k : String) (v : α) (h : ∀ e ∈ l, e.key ≠ k) :
    tDictSet clock l k v = l ++ [⟨k, v, clock⟩] := by
  induction l with
  | nil => simp [tDictSet]
  | cons e rest ih =>
      have hk : e.key ≠ k := h e (by simp)
      simp only [tDictSet, if_neg hk, List.cons_append, List.cons.injEq, true_and]
      exact ih (fun e' he' => h e' (by simp [he']))

theorem TInv_step {α : Type} (max_size : Nat) (s : List (TEntry α) × Nat)
    (op : CacheOp α) (h : TInv s) : TInv (tStep max_size s op) := by
  obtain ⟨hclock, hsorted⟩ := h
  cases op with
  | get k => exact ⟨fun e he => Nat.lt_succ_of_lt (hclock e he), hsorted⟩
  | set k v =>
      have hsub : ∀ e ∈ evictLoop max_size s.1, e ∈ s.1 :=
        fun e he => (evictLoop_suffix max_size s.1).subset he
      have hclock' : ∀ e ∈ evictLoop max_size s.1, e.tin < s.2 :=
        fun e he => hclock e (hsub e he)
      have hsorted' : ((evictLoop max_size s.1).map TEntry.tin).Pairwise (· < ·) := by
        exact hsorted.sublist (((evictLoop_suffix max_size s.1).sublist).map TEntry.tin)
      by_cases hmem : ∃ e ∈ evictLoop max_size s.1, e.key = k
      · constructor
        · intro e he
          have : e.tin ∈ (tDictSet s.2 (evictLoop max_size s.1) k v).map TEntry.tin :=
            List.mem_map_of_mem TEntry.tin he
          rw [tDictSet_map_tin_of_mem _ _ _ _ hmem] at this
          obtain ⟨e', he', htin⟩ := List.mem_map.mp this
          exact htin ▸ Nat.lt_succ_of_lt (hclock' e' he')
        · rw [tStep]
          simpa [tDictSet_map_tin_of_mem _ _ _ _ hmem] using hsorted'
      · push_neg at hmem
        rw [tStep]
        rw [tDictSet_eq_append _ _ _ _ hmem]
        constructor
        · intro e he
          rcases List.mem_append.mp he with he | he
          · exact Nat.lt_succ_of_lt (hclock' e he)
          · simp at he
            simp [he]
        · rw [List.map_append]
          rw [List.pairwise_append]
          refine ⟨hsorted', by simp, ?_⟩
          intro x hx y hy
          simp at hy
          obtain ⟨e', he', htin⟩ := List.mem_map.mp hx
          exact hy ▸ htin ▸ hclock' e' he'

theorem TInv_run {α : Type} (max_size : Nat) (s : List (TEntry α) × Nat)
    (ops : List (CacheOp α)) (h : TInv s) : TInv (tRun max_size s ops) := by
  induction ops generalizing s with
  | nil => exact h
  | cons op ops ih => exact ih _ (TInv_step max_size s op h)

theorem evictedBy_append_evictLoop {α : Type} (max_size : Nat) (l : List α) :
    l = evictedBy max_size l ++ evictLoop max_size l := by
  obtain ⟨pre, hpre⟩ := evictLoop_suffix max_size l
  have h1 : l.length = pre.length + (evictLoop max_size l).length := by
    conv_lhs => rw [← hpre]
    simp
  have h2 : evictedBy max_size l = pre := by
    rw [evictedBy]
    have h3 : l.length - (evictLoop max_size l).length = pre.length := by omega
    rw [h3]
    conv_lhs => rw [← hpre]
    exact List.take_left pre (evictLoop max_size l)
  rw [h2, hpre]

theorem swRun_length {α : Type} (max_size : Nat) (d : List (String × α))
    (ops : List (CacheOp α)) (hmax : 1 ≤ max_size) (hd : d.length ≤ max_size) :
    (swRun max_size d ops).length ≤ max_size := by
  induction ops generalizing d with
  | nil => exact hd
  | cons op ops ih =>
      cases op with
      | set k v => exact ih _ (swSet_length max_size d k v hmax)
      | get k => exact ih _ hd

theorem swRun_filter_isSet {α : Type} (max_size : Nat) (d : List (String × α))
    (ops : List (CacheOp α)) :
    swRun max_size d (ops.filter CacheOp.isSet) = swRun max_size d ops := by
  induction ops generalizing d with
  | nil => rfl
  | cons op ops ih =>
      cases op with
      | set k v => simp [swRun, swStep, List.filter, CacheOp.isSet, ih]
      | get k => simp [swRun, swStep, List.filter, CacheOp.isSet, ih]

theorem swRun_append {α : Type} (max_size : Nat) (d : List (String × α))
    (ops1 ops2 : List (CacheOp α)) :
    swRun max_size d (ops1 ++ ops2) = swRun max_size (swRun max_size d ops1) ops2 := by
  induction ops1 generalizing d with
  | nil => rfl
  | cons op ops ih => simp [swRun, ih]

theorem evicted_tin_lt {α : Type} (max_size : Nat) (l : List (TEntry α))
    (hsorted : (l.map TEntry.tin).Pairwise (· < ·)) :
    ∀ e ∈ evictedBy max_size l, ∀ r ∈ evictLoop max_size l, e.tin < r.tin := by
  intro e he r hr
  have hsplit := evictedBy_append_evictLoop max_size l
  rw [hsplit, List.map_append, List.pairwise_append] at hsorted
  exact hsorted.2.2 e.tin (List.mem_map_of_mem TEntry.tin he)
    r.tin (List.mem_map_of_mem TEntry.tin hr)

/-! ## Claim C2 — RecencyCache capacity and FIFO eviction -/

/-- **C2.** For every sequence of insert and lookup operations against a
`SlidingWindowDictionary` of configured capacity `max_size ≥ 1`, run from
empty: (1) the cache never holds more than `max_size` entries; (2) a
trailing lookup leaves the cache unchanged and (3) deleting every lookup
from the trace leaves the final cache unchanged — so an entry is evicted
only by an insert, and a lookup/hit does not refresh recency; (4) the
ghost-timestamped run projects exactly onto the source model; and (5) on
any insert, every entry the eviction loop pops entered the cache strictly
earlier than every surviving entry — the evictee is always the
least-recently-inserted entry, regardless of intervening lookups. -/
theorem C2_sliding_window_fifo {α : Type} (max_size : Nat) (ops : List (CacheOp α))
    (hmax : 1 ≤ max_size) :
    (swRun max_size [] ops).length ≤ max_size ∧
    (∀ k, swRun max_size [] (ops ++ [CacheOp.get k]) = swRun max_size [] ops) ∧
    swRun max_size [] (ops.filter CacheOp.isSet) = swRun max_size [] ops ∧
    tStrip (tRun max_size ([], 0) ops).1 = swRun max_size [] ops ∧
    (∀ e ∈ evictedBy max_size (tRun max_size ([], 0) ops).1,
      ∀ r ∈ evictLoop max_size (tRun max_size ([], 0) ops).1, e.tin < r.tin) := by
  refine ⟨swRun_length max_size [] ops hmax (by simp), ?_,
    swRun_filter_isSet max_size [] ops, ?_, ?_⟩
  · intro k
    rw [swRun_append]
    rfl
  · simpa [tStrip] using tStrip_tRun max_size ([], 0) ops
  · have hinv : TInv (tRun max_size (([], 0) : List (TEntry α) × Nat) ops) :=
      TInv_run max_size ([], 0) ops ⟨by simp, by simp⟩
    exact evicted_tin_lt max_size _ hinv.2

/-- Concrete instantiation of C2: capacity 1, two inserts with a lookup
in between. -/
theorem C2_sliding_window_fifo_witness :
    (swRun 1 [] [CacheOp.set "a" 0, CacheOp.get "a", CacheOp.set "b" 1]).length ≤ 1 :=
  (C2_sliding_window_fifo 1 [CacheOp.set "a" (0 : Nat), CacheOp.get "a", CacheOp.set "b" 1]
    (by decide)).1

/-! ## Claim C9 — required properties first, optional ones wrapped -/

/-- **C9.** The property clauses emitted into the query list all required
properties before all optional ones, each partition keeping its
configuration order (the partition is stable), and exactly the optional
clauses are wrapped in an `OPTIONAL { ... }` construct: a required
property contributes the bare triple pattern, an optional one the same
pattern wrapped by `sparql_optional`. -/
theorem C9_required_first_optional_wrapped (l : List PropRec) :
    (sort_properties l).map sparql_property =
      (l.filter (fun p => is_property_required p)).map
        (fun p => "    ?" ++ ID ++ " " ++ p.sparql ++ " ?" ++ p.varname ++ " .") ++
      (l.filter (fun p => !(is_property_required p))).map
        (fun p => sparql_optional ("    ?" ++ ID ++ " " ++ p.sparql ++ " ?" ++ p.varname ++ " .")) := by
  rw [sort_properties, List.map_append]
  congr 1
  · apply List.map_congr_left
    intro p hp
    have hreq : is_property_required p = true := (List.mem_filter.mp hp).2
    simp [sparql_property, hreq]
  · apply List.map_congr_left
    intro p hp
    have hreq : is_property_required p = false := by
      have h := (List.mem_filter.mp hp).2
      simpa using h
    simp [sparql_property, hreq]

/-! ## Claim C3 — merge semantics and idempotence -/

theorem alookup_isSome_iff {α : Type} (d : List (String × α)) (k : String) :
    (alookup d k).isSome ↔ k ∈ d.map Prod.fst := by
  induction d with
  | nil => simp
  | cons hd tl ih =>
      obtain ⟨k₀, v₀⟩ := hd
      by_cases h : k₀ = k
      · simp [h]
      · simp [h, ih, Ne.symm h]

theorem mem_mergeKeys_iff (old new : Doc) (k : String) :
    k ∈ mergeKeys old new ↔ (k ∈ old.map Prod.fst ∨ k ∈ new.map Prod.fst) := by
  simp only [mergeKeys, List.mem_append, List.mem_filter, List.mem_dedup, Bool.not_eq_true',
    List.contains, ← Bool.not_eq_true, List.elem_iff]
  tauto

theorem mergeKeys_nodup (old new : Doc) : (mergeKeys old new).Nodup := by
  rw [mergeKeys]
  refine List.Nodup.append (List.nodup_dedup _) ((List.nodup_dedup _).filter _) ?_
  intro k hk₁ hk₂
  have h₁ := List.mem_dedup.mp hk₁
  have h₂ := (List.mem_filter.mp hk₂).2
  simp only [Bool.not_eq_true'] at h₂
  exact absurd (by simpa [List.elem_iff] using h₁) (by simpa using h₂)

theorem mergeVal_fst (old new : Doc) (k : String) (e : String × PyVal)
    (h : mergeVal old new k = some e) : e.1 = k := by
  unfold mergeVal at h
  split at h
  · cases hv : alookup old k with
    | none => rw [hv] at h; simp at h
    | some v => rw [hv] at h; simp at h; simp [← h]
  · split at h
    · exact absurd h (by simp)
    · exact absurd h (by simp)
    · simp at h
      simp [← h]

theorem mergeVals_alookup (old new : Doc) (ks : List String) (m : Doc)
    (h : mergeVals old new ks = some m) (k : String) :
    alookup m k = if k ∈ ks then (mergeVal old new k).map Prod.snd else none := by
  induction ks generalizing m with
  | nil =>
      simp only [mergeVals] at h
      simp [← Option.some_inj.mp h]
  | cons k' ks ih =>
      simp only [mergeVals] at h
      cases he : mergeVal old new k' with
      | none => rw [he] at h; simp at h
      | some e =>
          rw [he] at h
          cases hr : mergeVals old new ks with
          | none => rw [hr] at h; simp at h
          | some rest =>
              rw [hr] at h
              simp only [Option.some_inj] at h
              subst h
              have hfst := mergeVal_fst old new k' e he
              obtain ⟨k₀, v₀⟩ := e
              simp only at hfst
              subst hfst
              by_cases hk : k = k₀
              · subst hk
                simp [alookup_cons, he]
              · simp only [alookup_cons, if_neg (Ne.symm hk), ih rest hr, List.mem_cons]
                simp [hk]

theorem mergeVals_isSome (old new : Doc) (ks : List String)
    (h : ∀ k ∈ ks, (mergeVal old new k).isSome) :
    (mergeVals old new ks).isSome := by
  induction ks with
  | nil => simp [mergeVals]
  | cons k' ks ih =>
      have h₁ := h k' (by simp)
      obtain ⟨e, he⟩ := Option.isSome_iff_exists.mp h₁
      have h₂ := ih (fun k hk => h k (by simp [hk]))
      obtain ⟨rest, hr⟩ := Option.isSome_iff_exists.mp h₂
      simp [mergeVals, he, hr]

theorem mergeVal_at_key (old new : Doc) (k : String) (hk : k ≠ "@id")
    (ho : ∀ v, alookup old k = some v → ∃ l, v = PyVal.vlist l)
    (hn : ∀ v, alookup new k = some v → ∃ l, v = PyVal.vlist l) :
    mergeVal old new k = some (k, .vlist (listAt old k ++
      ((listAt new k).filter (fun x => !((listAt old k).contains x))).dedup)) := by
  unfold mergeVal
  rw [if_neg hk]
  cases hov : alookup old k with
  | none =>
      cases hnv : alookup new k with
      | none => simp [listAt, hov, hnv]
      | some nv =>
          obtain ⟨nl, rfl⟩ := hn nv hnv
          simp [listAt, hov, hnv]
  | some ov =>
      obtain ⟨ol, rfl⟩ := ho ov hov
      cases hnv : alookup new k with
      | none => simp [listAt, hov, hnv]
      | some nv =>
          obtain ⟨nl, rfl⟩ := hn nv hnv
          simp [listAt, hov, hnv]

theorem alookup_eq_none_of_not_mem {α : Type} (d : List (String × α)) (k : String)
    (h : k ∉ d.map Prod.fst) : alookup d k = none := by
  cases hv : alookup d k with
  | none => rfl
  | some v =>
      exact absurd ((alookup_isSome_iff d k).mp (by simp [hv])) h

/-- **C3.** For documents `old` and `new` with equal id: `merge_bodies`
maps the `@id` key to `old`'s id verbatim; its key set is the union of
both key sets; every other key maps to the list holding `old`'s values
first in their original order followed by the values of `new` not already
present in `old` (value set = union, no duplicate in the result, given
the Document invariant that `old`'s value lists are duplicate-free).
Moreover merge is idempotent: `merge_bodies d d` succeeds and is
pointwise equal to `d` (Python dict equality). -/
theorem C3_merge_bodies :
    (∀ (old new : Doc) (i : PyVal),
      alookup old "@id" = some i → alookup new "@id" = some i →
      (∀ k v, k ≠ "@id" → alookup old k = some v → ∃ l, v = PyVal.vlist l ∧ l.Nodup) →
      (∀ k v, k ≠ "@id" → alookup new k = some v → ∃ l, v = PyVal.vlist l) →
      ∃ m, merge_bodies old new = some m ∧
        alookup m "@id" = some i ∧
        (∀ k, (alookup m k).isSome ↔ ((alookup old k).isSome ∨ (alookup new k).isSome)) ∧
        (∀ k, k ≠ "@id" →
          listAt m k = listAt old k ++
            ((listAt new k).filter (fun x => !((listAt old k).contains x))).dedup ∧
          (∀ x, x ∈ listAt m k ↔ (x ∈ listAt old k ∨ x ∈ listAt new k)) ∧
          (listAt m k).Nodup)) ∧
    (∀ d : Doc,
      (∀ k v, k ≠ "@id" → alookup d k = some v → ∃ l, v = PyVal.vlist l) →
      ∃ m, merge_bodies d d = some m ∧ ∀ k, alookup m k = alookup d k) := by
  constructor
  · intro old new i hold hnew holdsh hnewsh
    have hsome : ∀ k ∈ mergeKeys old new, (mergeVal old new k).isSome := by
      intro k hkm
      by_cases hk : k = "@id"
      · subst hk
        simp [mergeVal, hold]
      · rw [mergeVal_at_key old new k hk
          (fun v hv => (holdsh k v hk hv).imp (fun l hl => hl.1))
          (fun v hv => hnewsh k v hk hv)]
        simp
    obtain ⟨m, hm⟩ := Option.isSome_iff_exists.mp
      (mergeVals_isSome old new (mergeKeys old new) hsome)
    refine ⟨m, hm, ?_, ?_, ?_⟩
    · have hidkey : "@id" ∈ mergeKeys old new :=
        (mem_mergeKeys_iff old new "@id").mpr
          (Or.inl ((alookup_isSome_iff old "@id").mp (by simp [hold])))
      rw [mergeVals_alookup old new _ m hm "@id", if_pos hidkey]
      simp [mergeVal, hold]
    · intro k
      rw [mergeVals_alookup old new _ m hm k]
      by_cases hkm : k ∈ mergeKeys old new
      · rw [if_pos hkm]
        have h1 := hsome k hkm
        have h2 := (mem_mergeKeys_iff old new k).mp hkm
        constructor
        · intro _
          rcases h2 with h | h
          · exact Or.inl ((alookup_isSome_iff old k).mpr h)
          · exact Or.inr ((alookup_isSome_iff new k).mpr h)
        · intro _
          obtain ⟨e, he⟩ := Option.isSome_iff_exists.mp h1
          simp [he]
      · rw [if_neg hkm]
        rw [mem_mergeKeys_iff, not_or] at hkm
        simp only [Option.isSome_none, Bool.false_eq_true, false_iff]
        rintro (h | h)
        · exact hkm.1 ((alookup_isSome_iff old k).mp h)
        · exact hkm.2 ((alookup_isSome_iff new k).mp h)
    · intro k hk
      have hlook := mergeVals_alookup old new _ m hm k
      by_cases hkm : k ∈ mergeKeys old new
      · rw [if_pos hkm, mergeVal_at_key old new k hk
          (fun v hv => (holdsh k v hk hv).imp (fun l hl => hl.1))
          (fun v hv => hnewsh k v hk hv)] at hlook
        have hlist : listAt m k = listAt old k ++
            ((listAt new k).filter (fun x => !((listAt old k).contains x))).dedup := by
          simp [listAt, hlook]
        refine ⟨hlist, ?_, ?_⟩
        · intro x
          rw [hlist]
          simp only [List.mem_append, List.mem_dedup, List.mem_filter, List.contains,
            Bool.not_eq_true, ← Bool.not_eq_true, List.elem_iff]
          constructor
          · rintro (h | ⟨h, -⟩)
            · exact Or.inl h
            · exact Or.inr h
          · rintro (h | h)
            · exact Or.inl h
            · by_cases hx : x ∈ listAt old k
              · exact Or.inl hx
              · refine Or.inr ⟨h, ?_⟩
                simp [List.elem_iff, hx]
        · rw [hlist]
          have hond : (listAt old k).Nodup := by
            cases hov : alookup old k with
            | none => simp [listAt, hov]
            | some ov =>
                obtain ⟨l, rfl, hnd⟩ := holdsh k ov hk hov
                simpa [listAt, hov] using hnd
          have hdisj : (listAt old k).Disjoint
              (((listAt new k).filter (fun x => !((listAt old k).contains x))).dedup) := by
            intro x hx₁ hx₂
            have hx₃ := (List.mem_filter.mp (List.mem_dedup.mp hx₂)).2
            simp only [Bool.not_eq_true', List.contains] at hx₃
            have hx₄ : List.elem x (listAt old k) = true := (List.elem_iff).mpr hx₁
            rw [hx₄] at hx₃
            cases hx₃
          exact List.Nodup.append hond (List.nodup_dedup _) hdisj
      · rw [if_neg hkm] at hlook
        rw [mem_mergeKeys_iff, not_or] at hkm
        have ho0 : listAt old k = [] := by
          simp [listAt, alookup_eq_none_of_not_mem old k hkm.1]
        have hn0 : listAt new k = [] := by
          simp [listAt, alookup_eq_none_of_not_mem new k hkm.2]
        have hm0 : listAt m k = [] := by simp [listAt, hlook]
        simp [hm0, ho0, hn0]
  · intro d hd
    have hsome : ∀ k ∈ mergeKeys d d, (mergeVal d d k).isSome := by
      intro k hkm
      have hkd : k ∈ d.map Prod.fst := by
        rcases (mem_mergeKeys_iff d d k).mp hkm with h | h <;> exact h
      by_cases hk : k = "@id"
      · subst hk
        obtain ⟨v, hv⟩ := Option.isSome_iff_exists.mp ((alookup_isSome_iff d "@id").mpr hkd)
        simp [mergeVal, hv]
      · rw [mergeVal_at_key d d k hk (fun v hv => hd k v hk hv) (fun v hv => hd k v hk hv)]
        simp
    obtain ⟨m, hm⟩ := Option.isSome_iff_exists.mp
      (mergeVals_isSome d d (mergeKeys d d) hsome)
    refine ⟨m, hm, ?_⟩
    intro k
    rw [mergeVals_alookup d d _ m hm k]
    by_cases hkm : k ∈ mergeKeys d d
    · rw [if_pos hkm]
      by_cases hk : k = "@id"
      · subst hk
        cases hv : alookup d "@id" with
        | none =>
            have := (mem_mergeKeys_iff d d "@id").mp hkm
            rcases this with h | h <;>
              exact absurd ((alookup_isSome_iff d "@id").mpr h) (by simp [hv])
        | some v => simp [mergeVal, hv]
      · rw [mergeVal_at_key d d k hk (fun v hv => hd k v hk hv) (fun v hv => hd k v hk hv)]
        have hkd : k ∈ d.map Prod.fst := by
          rcases (mem_mergeKeys_iff d d k).mp hkm with h | h <;> exact h
        obtain ⟨v, hv⟩ := Option.isSome_iff_exists.mp ((alookup_isSome_iff d k).mpr hkd)
        obtain ⟨l, rfl⟩ := hd k v hk hv
        have hl : listAt d k = l := by simp [listAt, hv]
        have hfilter : l.filter (fun x => !(l.contains x)) = [] := by
          rw [List.filter_eq_nil_iff]
          intro a ha
          simp [List.contains, List.elem_iff, ha]
        simp [hl, hfilter, hv]
    · rw [if_neg hkm]
      rw [mem_mergeKeys_iff, not_or] at hkm
      exact (alookup_eq_none_of_not_mem d k hkm.1).symm

/-- Concrete instantiation of C3: merging two one-key documents with the
same id succeeds. -/
theorem C3_merge_bodies_witness :
    merge_bodies [("@id", PyVal.vstr "u")] [("@id", PyVal.vstr "u")] ≠ none := by
  obtain ⟨m, hm, -⟩ := C3_merge_bodies.1 [("@id", PyVal.vstr "u")] [("@id", PyVal.vstr "u")]
    (PyVal.vstr "u") (by simp [alookup]) (by simp [alookup])
    (by
      intro k v hk hv
      simp only [alookup_cons, alookup_nil] at hv
      rw [if_neg (fun h => hk h.symm)] at hv
      cases hv)
    (by
      intro k v hk hv
      simp only [alookup_cons, alookup_nil] at hv
      rw [if_neg (fun h => hk h.symm)] at hv
      cases hv)
  simp [hm]

/-! ## Claim C8 — update scripts cover exactly the non-metadata keys -/

theorem scriptLines_eq (props : List (String × PropRec)) (ks : List String)
    (h : ∀ k ∈ ks, startsWithAtSign k = false → (alookup props k).isSome) :
    scriptLines props ks = some
      (((ks.filter (fun k => !(startsWithAtSign k))).map
        (fun k => scriptFor (((alookup props k).map PropRec.jsonld).getD "") k)).flatten) := by
  induction ks with
  | nil => simp [scriptLines]
  | cons k ks ih =>
      have ih' := ih (fun k' hk' hks => h k' (by simp [hk']) hks)
      by_cases hs : startsWithAtSign k = true
      · rw [scriptLines, if_pos hs, ih']
        simp [hs]
      · have hs' : startsWithAtSign k = false := by simpa using hs
        have hsome := h k (by simp) hs'
        obtain ⟨pr, hpr⟩ := Option.isSome_iff_exists.mp hsome
        rw [scriptLines, if_neg hs, hpr, ih']
        simp [hs', hpr]

/-- **C8.** For every partial document whose non-metadata keys all resolve
in the property table, the generated update script is exactly the
newline-join of one conditional-append instruction (`scriptFor`: if the
target field is absent, initialize it to a one-element collection, else
append each new value only if not already present) per key that does not
begin with the metadata marker `"@"`, in body order — and no instruction
is emitted for any metadata-marker key. -/
theorem C8_update_script (props : List (String × PropRec)) (body : Doc)
    (h : ∀ k ∈ body.map Prod.fst, startsWithAtSign k = false → (alookup props k).isSome) :
    update_script_for props body = some (String.intercalate "\n"
      (((body.map Prod.fst).filter (fun k => !(startsWithAtSign k))).map
        (fun k => scriptFor (((alookup props k).map PropRec.jsonld).getD "") k)).flatten) ∧
    (∀ k ∈ (body.map Prod.fst).filter (fun k => !(startsWithAtSign k)),
      startsWithAtSign k = false) := by
  constructor
  · rw [update_script_for, scriptLines_eq props _ h]
    rfl
  · intro k hk
    have hmem := (List.mem_filter.mp hk).2
    simpa using hmem

/-- Concrete instantiation of C8: the script for a one-property body. -/
theorem C8_update_script_witness :
    update_script_for [("p", ⟨"ex:p", "p", "jp", false⟩)]
      [("@id", PyVal.vstr "u"), ("p", PyVal.vlist ["x"])] ≠ none := by
  have h := (C8_update_script [("p", ⟨"ex:p", "p", "jp", false⟩)]
    [("@id", PyVal.vstr "u"), ("p", PyVal.vlist ["x"])] (by decide)).1
  simp [h]

/-! ## Claim C4 — configuration errors in query building -/

/-- **C4 (counterexample).** Two shorthand properties whose short names
collide ("foo:name" and "bar:name" both shorten to "name") do **not**
make the build fail: the query builds successfully and the second
property is silently (modulo a printed warning) emitted under a
substituted uuid5-derived variable name — contradicting the claim that
any two properties resolving to the same output variable name are a
fatal error and that the build never succeeds with a substituted name. -/
theorem C4_counterexample :
    (sparql ⟨[("foo", "http://f/"), ("bar", "http://b/")],
        [PropConf.short "foo:name", PropConf.short "bar:name"], none⟩
      ⟨none, none, none, []⟩ "i" "t").isOk = true ∧
    sparql_optional ("    ?" ++ ID ++ " bar:name ?" ++ uuid5_hex "http://b/name" ++ " .") ∈
      okLines (sparql ⟨[("foo", "http://f/"), ("bar", "http://b/")],
        [PropConf.short "foo:name", PropConf.short "bar:name"], none⟩
      ⟨none, none, none, []⟩ "i" "t") := by
  constructor
  · decide
  · decide

/-- **C4 (amended).** Query building fails with a fatal configuration
error when no property at all is configured for the (index, type) pair,
and when a dict-based property's explicit variable name — or the
uuid5-derived fallback of a colliding shorthand — is already registered;
but a shorthand property whose short name collides with an
already-registered variable does not fail: it is registered under the
substituted uuid5-derived name and the build proceeds. -/
theorem C4_config_errors :
    (∀ (sconf : SessionConf) (tc : TypeConf) (index doc_type : String),
      sconf.common_properties = [] → tc.properties = [] →
      sparql sconf tc index doc_type =
        Except.error ("No properties configured for " ++ index ++ " " ++ doc_type)) ∧
    (∀ (conf : SessionConf) (props : List (String × PropRec)) (sq v j : String) (r : Bool),
      (alookup props v).isSome →
      expand_property conf props (.full sq v j r) =
        Except.error ("Duplicate property name " ++ v)) ∧
    (∀ (conf : SessionConf) (props : List (String × PropRec)) (s exp : String),
      (alookup props (shortName s)).isSome →
      expand_qname conf s = Except.ok exp →
      (alookup props (uuid5_hex exp)).isNone →
      expand_property conf props (.short s) =
        Except.ok (⟨s, uuid5_hex exp, uuid5_hex exp, false⟩,
          props ++ [(uuid5_hex exp, ⟨s, uuid5_hex exp, uuid5_hex exp, false⟩)])) ∧
    (∀ (conf : SessionConf) (props : List (String × PropRec)) (s exp : String),
      (alookup props (shortName s)).isSome →
      expand_qname conf s = Except.ok exp →
      (alookup props (uuid5_hex exp)).isSome →
      expand_property conf props (.short s) =
        Except.error ("Duplicate property name " ++ uuid5_hex exp)) := by
  refine ⟨?_, ?_, ?_, ?_⟩
  · intro sconf tc index doc_type h1 h2
    unfold sparql
    rw [h1, h2]
    simp [expand_all]
  · intro conf props sq v j r h
    simp [expand_property, register_property, h]
  · intro conf props s exp h1 hq h3
    have h1' : (alookup props (shortName s)).isNone = false := by
      obtain ⟨pr0, hpr0⟩ := Option.isSome_iff_exists.mp h1
      simp [hpr0]
    have h3' : alookup props (uuid5_hex exp) = none := Option.isNone_iff_eq_none.mp h3
    simp [expand_property, variable_for_property_name, h1', hq, Except.map,
      register_property, h3']
  · intro conf props s exp h1 hq h3
    have h1' : (alookup props (shortName s)).isNone = false := by
      obtain ⟨pr0, hpr0⟩ := Option.isSome_iff_exists.mp h1
      simp [hpr0]
    simp [expand_property, variable_for_property_name, h1', hq, Except.map,
      register_property, h3]

/-- Concrete instantiation of C4 (amended), empty-configuration case. -/
theorem C4_config_errors_witness :
    sparql ⟨[], [], none⟩ ⟨none, none, none, []⟩ "i" "t" =
      Except.error ("No properties configured for " ++ "i" ++ " " ++ "t") :=
  C4_config_errors.1 ⟨[], [], none⟩ ⟨none, none, none, []⟩ "i" "t" rfl rfl

/-! ## Claim C5 — subclass expansion union branch -/

theorem sparql_ok_inv (sconf : SessionConf) (tc : TypeConf) (index doc_type : String)
    (lines : List String) (props : List (String × PropRec))
    (hok : sparql sconf tc index doc_type = Except.ok (lines, props)) :
    ∃ properties, expand_all sconf [] (sconf.common_properties ++ tc.properties) =
        Except.ok (properties, props) ∧ properties ≠ [] ∧
      lines = [sparql_prefixes sconf, "SELECT *", "WHERE \x7b"] ++
        (match tc.graph with | some g => [" GRAPH <" ++ g ++ "> \x7b"] | none => []) ++
        typeLines tc ++ (sort_properties properties).map sparql_property ++
        (match tc.graph with | some _ => [" \x7d"] | none => []) ++ ["\x7d"] ++
        (match sconf.limit with | some lim => ["LIMIT " ++ lim] | none => []) := by
  unfold sparql at hok
  split at hok
  · exact absurd hok (by simp)
  · rename_i properties props' heq
    by_cases hne : properties = []
    · rw [if_pos hne] at hok
      exact absurd hok (by simp)
    · rw [if_neg hne] at hok
      simp only [Except.ok.injEq, Prod.mk.injEq] at hok
      obtain ⟨hl, hp⟩ := hok
      subst hp
      exact ⟨properties, heq, hne, hl.symm⟩

/-- **C5 (counterexample).** The claim states that the explicit
class-membership check (`?subClass a owl:Class .`) appears in the
single-level variant only; in the code it is the transitive ("owl")
variant that emits the membership check, and the single-level variant
that omits it. -/
theorem C5_counterexample :
    "     ?subClass a owl:Class . " ∈
      okLines (sparql ⟨[("foo", "http://f/")], [PropConf.short "foo:name"], none⟩
        ⟨some "ex:T", some "owl", none, []⟩ "i" "t") ∧
    "     ?subClass rdfs:subClassOf+ ex:T ." ∈
      okLines (sparql ⟨[("foo", "http://f/")], [PropConf.short "foo:name"], none⟩
        ⟨some "ex:T", some "owl", none, []⟩ "i" "t") ∧
    "     ?subClass a owl:Class . " ∉
      okLines (sparql ⟨[("foo", "http://f/")], [PropConf.short "foo:name"], none⟩
        ⟨some "ex:T", some "true", none, []⟩ "i" "t") ∧
    "     ?subClass rdfs:subClassOf ex:T ." ∈
      okLines (sparql ⟨[("foo", "http://f/")], [PropConf.short "foo:name"], none⟩
        ⟨some "ex:T", some "true", none, []⟩ "i" "t") := by
  refine ⟨by decide, by decide, by decide, by decide⟩

/-- **C5 (amended).** With a type constraint and subclass expansion
requested the query contains a union branch matching the entity via a
subclass pattern, and: in single-level mode (any truthy `subclasses`
value other than `"owl"`) the branch consists of the direct subclass edge
with **no** class-membership check; in transitive mode
(`subclasses == "owl"`) the branch carries the one-or-more transitive
pattern `rdfs:subClassOf+` **together with** an explicit `owl:Class`
membership check — in particular a transitive-mode configuration yields a
union branch with the transitive subclass-of pattern and not the
single-level one. -/
theorem C5_subclass_union (sconf : SessionConf) (tc : TypeConf) (index doc_type rt : String)
    (lines : List String) (props : List (String × PropRec))
    (htype : tc.rdf_type = some rt)
    (hok : sparql sconf tc index doc_type = Except.ok (lines, props)) :
    (∀ line ∈ subclassLines rt tc.subclasses, line ∈ lines) ∧
    (tc.subclasses = some "owl" →
      subclassLines rt tc.subclasses =
        ["   UNION \x7b", "     ?" ++ ID ++ " a ?subClass . ",
         "     ?subClass a owl:Class . ",
         "     ?subClass rdfs:subClassOf+ " ++ rt ++ " .", "   \x7d"] ∧
      "     ?subClass a owl:Class . " ∈ lines ∧
      ("     ?subClass rdfs:subClassOf " ++ rt ++ " .") ∉ subclassLines rt tc.subclasses) ∧
    (∀ sc, tc.subclasses = some sc → sc ≠ "" → sc ≠ "owl" →
      subclassLines rt tc.subclasses =
        ["   UNION \x7b", "     ?" ++ ID ++ " a ?subClass . ",
         "     ?subClass rdfs:subClassOf " ++ rt ++ " .", "   \x7d"] ∧
      "     ?subClass a owl:Class . " ∉ subclassLines rt tc.subclasses ∧
      ("     ?subClass rdfs:subClassOf+ " ++ rt ++ " .") ∉ subclassLines rt tc.subclasses) := by
  obtain ⟨properties, hexp, hne, hlines⟩ :=
    sparql_ok_inv sconf tc index doc_type lines props hok
  have hsub : ∀ line ∈ subclassLines rt tc.subclasses, line ∈ lines := by
    intro line hline
    have htl : line ∈ typeLines tc := by
      simp only [typeLines, htype]
      exact List.mem_cons_of_mem _ hline
    rw [hlines]
    simp only [List.mem_append]
    tauto
  refine ⟨hsub, ?_, ?_⟩
  · intro howl
    rw [howl]
    have heqowl : subclassLines rt (some "owl") =
        ["   UNION \x7b", "     ?" ++ ID ++ " a ?subClass . ",
         "     ?subClass a owl:Class . ",
         "     ?subClass rdfs:subClassOf+ " ++ rt ++ " .", "   \x7d"] := by
      simp only [subclassLines]
      rw [if_neg (by decide), if_pos (by decide)]
      rfl
    refine ⟨heqowl, ?_, ?_⟩
    · apply hsub
      rw [howl, heqowl]
      simp
    · rw [heqowl]
      intro hmem
      simp only [List.mem_cons, List.not_mem_nil, or_false] at hmem
      rcases hmem with h | h | h | h | h
      · have hlen := congrArg String.length h
        simp only [String.length_append] at hlen
        rw [show ("     ?subClass rdfs:subClassOf " : String).length = 31 from rfl,
            show (" ." : String).length = 2 from rfl,
            show ("   UNION \x7b" : String).length = 10 from rfl] at hlen
        omega
      · have hlen := congrArg String.length h
        simp only [String.length_append] at hlen
        rw [show ("     ?subClass rdfs:subClassOf " : String).length = 31 from rfl,
            show (" ." : String).length = 2 from rfl,
            show ("     ?" : String).length = 6 from rfl,
            show (ID : String).length = 2 from rfl,
            show (" a ?subClass . " : String).length = 15 from rfl] at hlen
        omega
      · have hlen := congrArg String.length h
        simp only [String.length_append] at hlen
        rw [show ("     ?subClass rdfs:subClassOf " : String).length = 31 from rfl,
            show (" ." : String).length = 2 from rfl,
            show ("     ?subClass a owl:Class . " : String).length = 29 from rfl] at hlen
        omega
      · have hlen := congrArg String.length h
        simp only [String.length_append] at hlen
        rw [show ("     ?subClass rdfs:subClassOf " : String).length = 31 from rfl,
            show ("     ?subClass rdfs:subClassOf+ " : String).length = 32 from rfl] at hlen
        omega
      · have hlen := congrArg String.length h
        simp only [String.length_append] at hlen
        rw [show ("     ?subClass rdfs:subClassOf " : String).length = 31 from rfl,
            show (" ." : String).length = 2 from rfl,
            show ("   \x7d" : String).length = 4 from rfl] at hlen
        omega
  · intro sc hsc hsc1 hsc2
    rw [hsc]
    have heqsl : subclassLines rt (some sc) =
        ["   UNION \x7b", "     ?" ++ ID ++ " a ?subClass . ",
         "     ?subClass rdfs:subClassOf " ++ rt ++ " .", "   \x7d"] := by
      simp only [subclassLines]
      rw [if_neg (by simpa using hsc1), if_neg (by simpa using hsc2)]
      rfl
    refine ⟨heqsl, ?_, ?_⟩
    · rw [heqsl]
      intro hmem
      simp only [List.mem_cons, List.not_mem_nil, or_false] at hmem
      rcases hmem with h | h | h | h
      · have hlen := congrArg String.length h
        rw [show ("     ?subClass a owl:Class . " : String).length = 29 from rfl,
            show ("   UNION \x7b" : String).length = 10 from rfl] at hlen
        omega
      · have hlen := congrArg String.length h
        simp only [String.length_append] at hlen
        rw [show ("     ?subClass a owl:Class . " : String).length = 29 from rfl,
            show ("     ?" : String).length = 6 from rfl,
            show (ID : String).length = 2 from rfl,
            show (" a ?subClass . " : String).length = 15 from rfl] at hlen
        omega
      · have hlen := congrArg String.length h
        simp only [String.length_append] at hlen
        rw [show ("     ?subClass a owl:Class . " : String).length = 29 from rfl,
            show ("     ?subClass rdfs:subClassOf " : String).length = 31 from rfl,
            show (" ." : String).length = 2 from rfl] at hlen
        omega
      · have hlen := congrArg String.length h
        rw [show ("     ?subClass a owl:Class . " : String).length = 29 from rfl,
            show ("   \x7d" : String).length = 4 from rfl] at hlen
        omega
    · rw [heqsl]
      intro hmem
      simp only [List.mem_cons, List.not_mem_nil, or_false] at hmem
      rcases hmem with h | h | h | h
      · have hlen := congrArg String.length h
        simp only [String.length_append] at hlen
        rw [show ("     ?subClass rdfs:subClassOf+ " : String).length = 32 from rfl,
            show (" ." : String).length = 2 from rfl,
            show ("   UNION \x7b" : String).length = 10 from rfl] at hlen
        omega
      · have hlen := congrArg String.length h
        simp only [String.length_append] at hlen
        rw [show ("     ?subClass rdfs:subClassOf+ " : String).length = 32 from rfl,
            show (" ." : String).length = 2 from rfl,
            show ("     ?" : String).length = 6 from rfl,
            show (ID : String).length = 2 from rfl,
            show (" a ?subClass . " : String).length = 15 from rfl] at hlen
        omega
      · have hlen := congrArg String.length h
        simp only [String.length_append] at hlen
        rw [show ("     ?subClass rdfs:subClassOf+ " : String).length = 32 from rfl,
            show ("     ?subClass rdfs:subClassOf " : String).length = 31 from rfl] at hlen
        omega
      · have hlen := congrArg String.length h
        simp only [String.length_append] at hlen
        rw [show ("     ?subClass rdfs:subClassOf+ " : String).length = 32 from rfl,
            show (" ." : String).length = 2 from rfl,
            show ("   \x7d" : String).length = 4 from rfl] at hlen
        omega

/-- Concrete instantiation of C5 (amended) on the "owl" configuration. -/
theorem C5_subclass_union_witness :
    "     ?subClass a owl:Class . " ∈
      okLines (sparql ⟨[("foo", "http://f/")], [PropConf.short "foo:name"], none⟩
        ⟨some "ex:T", some "owl", none, []⟩ "i" "t") := by
  have h := (C5_subclass_union ⟨[("foo", "http://f/")], [PropConf.short "foo:name"], none⟩
    ⟨some "ex:T", some "owl", none, []⟩ "i" "t" "ex:T"
    (okLines (sparql ⟨[("foo", "http://f/")], [PropConf.short "foo:name"], none⟩
      ⟨some "ex:T", some "owl", none, []⟩ "i" "t"))
    [("name", ⟨"foo:name", "name", "name", false⟩)] rfl rfl).2.1 rfl
  exact h.2.1

/-! ## Claim C1 — the reconciliation dispatch of binding_as_doc -/

/-- **C1.** For every row that projects successfully, `binding_as_doc`
dispatches on the reconciliation state exactly as specified: an unseen
entity key is added to the seen set, its document stored in the cache,
and a Replace (plain index action with the full document) returned; a
seen and cache-resident key has the cached and new documents merged, the
cache refreshed with the merged result, and a Replace with the merged
document returned; a seen but no-longer-cached key yields an Upsert
(update action) carrying the new partial document as insert-if-absent
body, the conditional-append script, and the flat parameter map. -/
theorem C1_reconciliation_dispatch (cfg : IndexerConf) (st : IndexerState) (node : Row)
    (pj : Projected) (hpj : projectBody cfg st node = some pj) :
    (pj.st.indexed.contains (docUuid pj.uri) = false →
      binding_as_doc cfg st node = some
        (.index cfg.index cfg.doc_type pj.uri pj.body,
         { pj.st with indexed := pj.st.indexed ++ [docUuid pj.uri],
                      cache := swSet cfg.max_size pj.st.cache (docUuid pj.uri) pj.body })) ∧
    (∀ cached merged, pj.st.indexed.contains (docUuid pj.uri) = true →
      alookup pj.st.cache (docUuid pj.uri) = some cached → cached ≠ [] →
      merge_bodies cached pj.body = some merged →
      binding_as_doc cfg st node = some
        (.index cfg.index cfg.doc_type pj.uri merged,
         { pj.st with cache := swSet cfg.max_size pj.st.cache (docUuid pj.uri) merged })) ∧
    (∀ script, pj.st.indexed.contains (docUuid pj.uri) = true →
      alookup pj.st.cache (docUuid pj.uri) = none →
      update_script_for cfg.props pj.body = some script →
      binding_as_doc cfg st node = some
        (.update cfg.index cfg.doc_type pj.uri script pj.params pj.body, pj.st)) := by
  refine ⟨?_, ?_, ?_⟩
  · intro h
    have h' : docUuid pj.uri ∉ pj.st.indexed := by simpa using h
    simp [binding_as_doc, hpj, h']
  · intro cached merged h hcached hne hmerge
    have h' : docUuid pj.uri ∈ pj.st.indexed := by simpa using h
    simp [binding_as_doc, hpj, h', hcached, hne, hmerge]
  · intro script h hcached hscript
    have h' : docUuid pj.uri ∈ pj.st.indexed := by simpa using h
    simp [binding_as_doc, hpj, h', hcached, upsertMsg, hscript]

/-- Concrete instantiation of C1, unseen-entity branch. -/
theorem C1_reconciliation_dispatch_witness :
    binding_as_doc ⟨"i", "t", none, [], 1000⟩ initState [(ID, some ⟨"uri", some "u"⟩)] =
      some (.index "i" "t" "u" [("@id", PyVal.vstr "u")],
        ⟨["uuid5:u"], [("uuid5:u", [("@id", PyVal.vstr "u")])], [], 0, 1⟩) := by
  have h := (C1_reconciliation_dispatch ⟨"i", "t", none, [], 1000⟩ initState
    [(ID, some ⟨"uri", some "u"⟩)]
    ⟨"u", [("@id", PyVal.vstr "u")], [], ⟨[], [], [], 0, 1⟩⟩ rfl).1 rfl
  exact h

/-! ## Claim C10 — subClass maps to a fixed key, other variables through the table -/

theorem varLoop_fail (props : List (String × PropRec)) (rest : Row) (body : Doc)
    (params : List (String × Option String)) (w : String) (b : Option BindingV)
    (hID : w ≠ ID) (hTYPE : w ≠ TYPE) (hsub : w ≠ "subClass")
    (hp : alookup props w = none) :
    varLoop props ((w, b) :: rest) body params = none := by
  rw [varLoop, if_neg (not_or.mpr ⟨hID, hTYPE⟩), if_neg hsub, hp]
  simp

/-- **C10.** A binding of the variable `subClass` is projected to the
fixed document key `rdfs:subClassOf` (and its raw value into the params
under `subClass`) without consulting the configured property table; every
other variable besides the reserved `id`/`type` variables goes through
the table: a bound variable with no configured PropertySpec makes the
whole projection fail (KeyError) instead of emitting an instruction,
while a configured one lands under its PropertySpec's jsonld key. -/
theorem C10_variable_mapping :
    (∀ (cfg : IndexerConf) (st : IndexerState) (u v : String),
      cfg.rdf_type = none →
      ∃ pj, projectBody cfg st [(ID, some ⟨"uri", some u⟩), ("subClass", some ⟨"uri", some v⟩)]
          = some pj ∧
        alookup pj.body "rdfs:subClassOf" = some (.vlist [v]) ∧
        alookup pj.params "subClass" = some (some v)) ∧
    (∀ (cfg : IndexerConf) (st : IndexerState) (u w : String) (b : Option BindingV),
      w ≠ ID → w ≠ TYPE → w ≠ "subClass" → alookup cfg.props w = none →
      binding_as_doc cfg st [(ID, some ⟨"uri", some u⟩), (w, b)] = none) ∧
    (∀ (cfg : IndexerConf) (st : IndexerState) (u w v : String) (pr : PropRec),
      cfg.rdf_type = none → w ≠ ID → w ≠ TYPE → w ≠ "subClass" →
      alookup cfg.props w = some pr → pr.jsonld ≠ "@id" →
      ∃ pj, projectBody cfg st [(ID, some ⟨"uri", some u⟩), (w, some ⟨"uri", some v⟩)]
          = some pj ∧ alookup pj.body pr.jsonld = some (.vlist [v])) := by
  refine ⟨?_, ?_, ?_⟩
  · intro cfg st u v hrdf
    obtain ⟨idx, dty, rdf, propsT, ms⟩ := cfg
    simp only at hrdf
    subst hrdf
    exact ⟨_, rfl, rfl, rfl⟩
  · intro cfg st u w b hID hTYPE hsub hprops
    have htypes : typesOf cfg [(ID, some ⟨"uri", some u⟩), (w, b)] =
        some ((match cfg.rdf_type with | some t => [t] | none => []), []) := by
      rw [typesOf]
      have hTYPE' : ¬(w = "type") := by simpa [TYPE] using hTYPE
      simp [ID, TYPE, hTYPE']
    have hvl : ∀ body params,
        varLoop cfg.props [(ID, some ⟨"uri", some u⟩), (w, b)] body params = none := by
      intro body params
      rw [varLoop, if_pos (Or.inl rfl)]
      exact varLoop_fail cfg.props [] body params w b hID hTYPE hsub hprops
    rw [binding_as_doc, projectBody]
    simp [htypes, hvl, unescape]
  · intro cfg st u w v pr hrdf hID hTYPE hsub hprops hjson
    obtain ⟨idx, dty, rdf, propsT, ms⟩ := cfg
    simp only at hrdf hprops
    subst hrdf
    have hvl : varLoop propsT [(ID, some ⟨"uri", some u⟩), (w, some ⟨"uri", some v⟩)]
        [("@id", .vstr (pyUnquote u))] [] =
        some (dictSet [("@id", .vstr (pyUnquote u))] pr.jsonld (.vlist [v]),
          dictSet [] w (some v)) := by
      rw [varLoop, if_pos (Or.inl rfl), varLoop, if_neg (not_or.mpr ⟨hID, hTYPE⟩),
        if_neg hsub, hprops]
      simp [varLoop]
    refine ⟨⟨pyUnquote u, dictSet [("@id", PyVal.vstr (pyUnquote u))] pr.jsonld (PyVal.vlist [v]),
      dictSet [] w (some v), { st with count := st.count + 1 }⟩, ?_, ?_⟩
    · rw [projectBody]
      simp [typesOf, unescape, hvl, show ¬(ID = TYPE) from by decide, hTYPE]
    · rw [alookup_dictSet]
      simp

/-- Concrete instantiation of C10, subClass branch. -/
theorem C10_variable_mapping_witness :
    projectBody ⟨"i", "t", none, [], 1000⟩ initState
      [(ID, some ⟨"uri", some "u"⟩), ("subClass", some ⟨"uri", some "v"⟩)] ≠ none := by
  obtain ⟨pj, hpj, -⟩ := C10_variable_mapping.1 ⟨"i", "t", none, [], 1000⟩ initState "u" "v" rfl
  simp [hpj]

/-! ## Claim C7 — blank-node resolution -/

theorem alookup_append {α : Type} (l₁ l₂ : List (String × α)) (k : String) :
    alookup (l₁ ++ l₂) k =
      match alookup l₁ k with
      | some v => some v
      | none => alookup l₂ k := by
  induction l₁ with
  | nil => simp
  | cons hd tl ih =>
      obtain ⟨k₀, v₀⟩ := hd
      by_cases h : k₀ = k
      · simp [h]
      · simp [h, ih]

theorem alookup_some_mem {α : Type} (l : List (String × α)) (k : String) (v : α)
    (h : alookup l k = some v) : (k, v) ∈ l := by
  induction l with
  | nil => simp at h
  | cons hd tl ih =>
      obtain ⟨k₀, v₀⟩ := hd
      by_cases hk : k₀ = k
      · subst hk
        rw [alookup_cons, if_pos rfl] at h
        obtain rfl := Option.some_inj.mp h
        exact List.mem_cons_self _ _
      · rw [alookup_cons, if_neg hk] at h
        exact List.mem_cons_of_mem _ (ih h)

theorem alookup_mem_values {α : Type} (l : List (String × α)) (k : String) (v : α)
    (h : alookup l k = some v) : v ∈ l.map Prod.snd :=
  List.mem_map.mpr ⟨(k, v), alookup_some_mem l k v h, rfl⟩

theorem alookup_values_ne {α : Type} (l : List (String × α)) (k₁ k₂ : String) (u₁ u₂ : α)
    (hnd : (l.map Prod.snd).Nodup) (h₁ : alookup l k₁ = some u₁)
    (h₂ : alookup l k₂ = some u₂) (hne : k₁ ≠ k₂) : u₁ ≠ u₂ := by
  induction l with
  | nil => simp at h₁
  | cons hd tl ih =>
      obtain ⟨k₀, v₀⟩ := hd
      simp only [List.map_cons, List.nodup_cons] at hnd
      by_cases e₁ : k₀ = k₁
      · subst e₁
        rw [alookup_cons, if_pos rfl] at h₁
        obtain rfl := Option.some_inj.mp h₁
        rw [alookup_cons, if_neg hne] at h₂
        exact fun heq => hnd.1 (heq ▸ alookup_mem_values tl k₂ u₂ h₂)
      · by_cases e₂ : k₀ = k₂
        · subst e₂
          rw [alookup_cons, if_pos rfl] at h₂
          obtain rfl := Option.some_inj.mp h₂
          rw [alookup_cons, if_neg e₁] at h₁
          exact fun heq => hnd.1 (heq ▸ alookup_mem_values tl k₁ u₁ h₁)
        · rw [alookup_cons, if_neg e₁] at h₁
          rw [alookup_cons, if_neg e₂] at h₂
          exact ih hnd.2 h₁ h₂

theorem uuid4urn_injective : Function.Injective uuid4urn := by
  intro m n h
  have h' := congrArg (fun s => s.data.length) h
  simpa [uuid4urn] using h'

theorem skolemize_lookup_self (st : IndexerState) (k : String) :
    alookup ((skolemize st k).2).blanknodes k = some (skolemize st k).1 := by
  cases h : alookup st.blanknodes k with
  | some u => simp [skolemize, h]
  | none => simp [skolemize, h, alookup_append]

theorem skolemize_of_lookup (st : IndexerState) (k u : String)
    (h : alookup st.blanknodes k = some u) : skolemize st k = (u, st) := by
  simp [skolemize, h]

theorem skolemize_preserves (st : IndexerState) (k k' u : String)
    (h : alookup st.blanknodes k = some u) :
    alookup ((skolemize st k').2).blanknodes k = some u := by
  cases h' : alookup st.blanknodes k' with
  | some u' => simp [skolemize, h', h]
  | none => simp [skolemize, h', alookup_append, h]

theorem skolRun_preserves (st : IndexerState) (ks : List String) (k u : String)
    (h : alookup st.blanknodes k = some u) :
    alookup (skolRun st ks).blanknodes k = some u := by
  induction ks generalizing st with
  | nil => exact h
  | cons k' ks ih => exact ih _ (skolemize_preserves st k k' u h)

theorem BnWF_skolemize (st : IndexerState) (k : String) (h : BnWF st) :
    BnWF (skolemize st k).2 := by
  obtain ⟨hnd, hval⟩ := h
  cases h' : alookup st.blanknodes k with
  | some u => simpa [skolemize, h'] using ⟨hnd, hval⟩
  | none =>
      simp only [skolemize, h']
      constructor
      · rw [List.map_append, List.nodup_append]
        refine ⟨hnd, by simp, ?_⟩
        intro v hv hv2
        simp only [List.map_cons, List.map_nil, List.mem_singleton] at hv2
        obtain ⟨p, hp, hpv⟩ := List.mem_map.mp hv
        obtain ⟨n, hn, hu⟩ := hval p hp
        rw [← hpv, hu] at hv2
        have := uuid4urn_injective hv2
        omega
      · intro p hp
        rcases List.mem_append.mp hp with hp | hp
        · obtain ⟨n, hn, hu⟩ := hval p hp
          exact ⟨n, show n < st.bnFresh + 1 from by omega, hu⟩
        · simp only [List.mem_singleton] at hp
          exact ⟨st.bnFresh, show st.bnFresh < st.bnFresh + 1 from by omega, by rw [hp]⟩

/-- **C7.** Within one run blank-node resolution is deterministic and
injective: resolving a raw key again — immediately or after any sequence
of other resolutions — returns the same synthetic identifier and leaves
the map unchanged; on a well-formed state, resolving two distinct raw
keys never yields the same identifier; and two rows binding the entity
id to a blank node with the same raw key project to the same EntityKey
and are reconciled as one entity (the second sighting is a merge-Replace
of the same document id, and the seen set still holds one key). -/
theorem C7_blanknode_resolution :
    (∀ (st : IndexerState) (k : String),
      skolemize ((skolemize st k).2) k = skolemize st k) ∧
    (∀ (st : IndexerState) (k : String) (ks : List String),
      (skolemize (skolRun (skolemize st k).2 ks) k).1 = (skolemize st k).1) ∧
    (∀ st : IndexerState, BnWF st → ∀ k₁ k₂ : String, k₁ ≠ k₂ →
      (skolemize ((skolemize st k₁).2) k₂).1 ≠ (skolemize st k₁).1) ∧
    (∀ idx dty raw : String,
      ∃ u st1 st2,
        binding_as_doc ⟨idx, dty, none, [], 1000⟩ initState
            [(ID, some ⟨"bnode", some raw⟩)] =
          some (Msg.index idx dty u [("@id", PyVal.vstr u)], st1) ∧
        binding_as_doc ⟨idx, dty, none, [], 1000⟩ st1
            [(ID, some ⟨"bnode", some raw⟩)] =
          some (Msg.index idx dty u [("@id", PyVal.vstr u)], st2) ∧
        st2.indexed = [docUuid u] ∧
        st2.cache = [(docUuid u, [("@id", PyVal.vstr u)])]) := by
  refine ⟨?_, ?_, ?_, ?_⟩
  · intro st k
    rw [skolemize_of_lookup _ _ _ (skolemize_lookup_self st k)]
  · intro st k ks
    rw [skolemize_of_lookup _ _ _
      (skolRun_preserves _ ks k _ (skolemize_lookup_self st k))]
  · intro st hwf k₁ k₂ hne
    have hwf₁ : BnWF (skolemize st k₁).2 := BnWF_skolemize st k₁ hwf
    have h₁ : alookup ((skolemize st k₁).2).blanknodes k₁ = some (skolemize st k₁).1 :=
      skolemize_lookup_self st k₁
    cases h₂ : alookup ((skolemize st k₁).2).blanknodes k₂ with
    | some u₂ =>
        rw [skolemize_of_lookup _ _ _ h₂]
        exact alookup_values_ne _ k₂ k₁ u₂ _ hwf₁.1 h₂ h₁ (Ne.symm hne)
    | none =>
        rw [skolemize]
        simp only [h₂]
        intro heq
        have hmem := alookup_some_mem _ _ _ h₁
        obtain ⟨n, hn, hu⟩ := hwf₁.2 _ hmem
        simp only at hu
        rw [hu] at heq
        have := uuid4urn_injective heq
        omega
  · intro idx dty raw
    refine ⟨uuid4urn 0,
      ⟨[docUuid (uuid4urn 0)], [(docUuid (uuid4urn 0), [("@id", PyVal.vstr (uuid4urn 0))])],
        [(raw, uuid4urn 0)], 1, 1⟩,
      ⟨[docUuid (uuid4urn 0)], [(docUuid (uuid4urn 0), [("@id", PyVal.vstr (uuid4urn 0))])],
        [(raw, uuid4urn 0)], 1, 2⟩, ?_, ?_, rfl, rfl⟩
    · rfl
    · have hskol : skolemize
          ⟨[docUuid (uuid4urn 0)], [(docUuid (uuid4urn 0), [("@id", PyVal.vstr (uuid4urn 0))])],
            [(raw, uuid4urn 0)], 1, 1⟩ raw =
          (uuid4urn 0,
            ⟨[docUuid (uuid4urn 0)], [(docUuid (uuid4urn 0), [("@id", PyVal.vstr (uuid4urn 0))])],
              [(raw, uuid4urn 0)], 1, 1⟩) := by
        simp [skolemize]
      have hmerge : merge_bodies [("@id", PyVal.vstr (uuid4urn 0))]
          [("@id", PyVal.vstr (uuid4urn 0))] = some [("@id", PyVal.vstr (uuid4urn 0))] := by
        decide
      simp [binding_as_doc, projectBody, typesOf, varLoop, hskol, hmerge,
        swSet, evictLoop, dictSet, show ¬(ID = TYPE) from by decide]

/-- Concrete instantiation of C7, injectivity at two distinct raw keys. -/
theorem C7_blanknode_resolution_witness :
    (skolemize ((skolemize initState "b1").2) "b2").1 ≠ (skolemize initState "b1").1 :=
  C7_blanknode_resolution.2.2.1 initState (by refine ⟨?_, ?_⟩ <;> simp [initState, BnWF])
    "b1" "b2" (by decide)

/-! ## Claim C6 — order-independent merging while cache-resident -/

theorem WfDoc_dictSet_vlist (d : Doc) (k : String) (l : List String) (h : WfDoc d) :
    WfDoc (dictSet d k (.vlist l)) := by
  obtain ⟨hid, hsh⟩ := h
  constructor
  · rw [alookup_dictSet]
    by_cases hk : k = "@id"
    · simp [hk]
    · simpa [hk] using hid
  · intro k' v hk' hv
    rw [alookup_dictSet] at hv
    by_cases he : k = k'
    · rw [if_pos he] at hv
      exact ⟨l, (Option.some_inj.mp hv).symm⟩
    · rw [if_neg he] at hv
      exact hsh k' v hk' hv

theorem varLoop_wf (props : List (String × PropRec)) (r : Row) :
    ∀ (body : Doc) (params : List (String × Option String))
      (out : Doc × List (String × Option String)),
      varLoop props r body params = some out → WfDoc body → WfDoc out.1 := by
  induction r with
  | nil =>
      intro body params out h hw
      rw [varLoop] at h
      obtain rfl := Option.some_inj.mp h
      exact hw
  | cons e rest ih =>
      intro body params out h hw
      obtain ⟨var, b⟩ := e
      by_cases hvt : var = ID ∨ var = TYPE
      · rw [varLoop, if_pos hvt] at h
        exact ih _ _ _ h hw
      · cases hj : (if var = "subClass" then some "rdfs:subClassOf"
            else (alookup props var).map PropRec.jsonld) with
        | none =>
            rw [varLoop, if_neg hvt] at h
            simp only [hj] at h
            cases h
        | some jsonld =>
            rw [varLoop, if_neg hvt] at h
            simp only [hj] at h
            cases b with
            | none => exact ih _ _ _ h (WfDoc_dictSet_vlist _ _ _ hw)
            | some bv =>
                cases hbv : bv.bvalue with
                | none =>
                    simp only [hbv] at h
                    exact ih _ _ _ h (WfDoc_dictSet_vlist _ _ _ hw)
                | some value =>
                    simp only [hbv] at h
                    exact ih _ _ _ h (WfDoc_dictSet_vlist _ _ _ hw)

theorem projectBody_body_wf (cfg : IndexerConf) (st : IndexerState) (node : Row)
    (pj : Projected) (h : projectBody cfg st node = some pj) : WfDoc pj.body := by
  rw [projectBody] at h
  cases hid : alookup node ID with
  | none => simp only [hid] at h; cases h
  | some ob =>
      cases ob with
      | none => simp only [hid] at h; cases h
      | some idb =>
          simp only [hid] at h
          cases hu : (if idb.btype = "uri" then
              (unescape idb).map (fun u => (u, st)) else idb.bvalue.map (skolemize st)) with
          | none => simp only [hu] at h; cases h
          | some us =>
              obtain ⟨uri, st1⟩ := us
              simp only [hu] at h
              cases ht : typesOf cfg node with
              | none => simp only [ht] at h; cases h
              | some tp =>
                  obtain ⟨types1, params0⟩ := tp
                  simp only [ht] at h
                  have hw0 : WfDoc [("@id", PyVal.vstr uri)] := by
                    constructor
                    · simp
                    · intro k v hk hv
                      rw [alookup_cons, if_neg (fun hc => hk hc.symm)] at hv
                      cases hv
                  have hw1 : WfDoc (if types1 ≠ [] then
                      dictSet [("@id", PyVal.vstr uri)] "@type" (.vlist types1)
                      else [("@id", PyVal.vstr uri)]) := by
                    by_cases hne : types1 ≠ []
                    · rw [if_pos hne]
                      exact WfDoc_dictSet_vlist _ _ _ hw0
                    · rw [if_neg hne]
                      exact hw0
                  cases hvl : varLoop cfg.props node
                      (if types1 ≠ [] then
                        dictSet [("@id", PyVal.vstr uri)] "@type" (.vlist types1)
                      else [("@id", PyVal.vstr uri)]) params0 with
                  | none => simp only [hvl] at h; cases h
                  | some out =>
                      obtain ⟨body2, params2⟩ := out
                      simp only [hvl] at h
                      obtain rfl := Option.some_inj.mp h.symm
                      exact varLoop_wf cfg.props node _ _ _ hvl hw1

theorem WfDoc_ne_nil (d : Doc) (h : WfDoc d) : d ≠ [] := by
  intro hnil
  subst hnil
  simpa using h.1

theorem projectBody_uri_state (cfg : IndexerConf) (st st0 : IndexerState) (node : Row)
    (b : BindingV) (pj : Projected)
    (hid : alookup node ID = some (some b)) (hturi : b.btype = "uri")
    (h0 : projectBody cfg st0 node = some pj) :
    projectBody cfg st node =
      some ⟨pj.uri, pj.body, pj.params, { st with count := st.count + 1 }⟩ := by
  rw [projectBody] at h0 ⊢
  simp only [hid] at h0 ⊢
  rw [if_pos hturi] at h0 ⊢
  cases hu : unescape b with
  | none => simp only [hu, Option.map_none'] at h0; cases h0
  | some uv =>
      simp only [hu, Option.map_some'] at h0 ⊢
      cases ht : typesOf cfg node with
      | none => simp only [ht] at h0; cases h0
      | some tp =>
          obtain ⟨types1, params0⟩ := tp
          simp only [ht] at h0 ⊢
          cases hvl : varLoop cfg.props node
              (if types1 ≠ [] then
                dictSet [("@id", PyVal.vstr uv)] "@type" (.vlist types1)
              else [("@id", PyVal.vstr uv)]) params0 with
          | none => simp only [hvl] at h0; cases h0
          | some out =>
              obtain ⟨body2, params2⟩ := out
              simp only [hvl] at h0 ⊢
              obtain rfl := Option.some_inj.mp h0.symm
              rfl

theorem merge_wf (old new : Doc) (ho : WfDoc old) (hn : WfDoc new) :
    ∃ m, merge_bodies old new = some m ∧ WfDoc m ∧
      (∀ k, k ≠ "@id" → ∀ v, v ∈ listAt m k ↔ (v ∈ listAt old k ∨ v ∈ listAt new k)) := by
  obtain ⟨hoid, hosh⟩ := ho
  obtain ⟨hnid, hnsh⟩ := hn
  obtain ⟨i, hi⟩ := Option.isSome_iff_exists.mp hoid
  have hsome : ∀ k ∈ mergeKeys old new, (mergeVal old new k).isSome := by
    intro k _
    by_cases hk : k = "@id"
    · subst hk; simp [mergeVal, hi]
    · rw [mergeVal_at_key old new k hk (fun v hv => hosh k v hk hv)
        (fun v hv => hnsh k v hk hv)]
      simp
  obtain ⟨m, hm⟩ := Option.isSome_iff_exists.mp (mergeVals_isSome old new _ hsome)
  have hlook := fun k => mergeVals_alookup old new _ m hm k
  have hidk : "@id" ∈ mergeKeys old new :=
    (mem_mergeKeys_iff _ _ _).mpr (Or.inl ((alookup_isSome_iff _ _).mp hoid))
  refine ⟨m, hm, ⟨?_, ?_⟩, ?_⟩
  · rw [hlook "@id", if_pos hidk]
    simp [mergeVal, hi]
  · intro k v hk hv
    rw [hlook k] at hv
    by_cases hkm : k ∈ mergeKeys old new
    · rw [if_pos hkm, mergeVal_at_key old new k hk (fun v hv => hosh k v hk hv)
        (fun v hv => hnsh k v hk hv)] at hv
      simp only [Option.map_some'] at hv
      exact ⟨_, Option.some_inj.mp hv.symm⟩
    · rw [if_neg hkm] at hv
      cases hv
  · intro k hk v
    by_cases hkm : k ∈ mergeKeys old new
    · have hv := hlook k
      rw [if_pos hkm, mergeVal_at_key old new k hk (fun v hv => hosh k v hk hv)
        (fun v hv => hnsh k v hk hv)] at hv
      have hlist : listAt m k = listAt old k ++
          ((listAt new k).filter (fun x => !((listAt old k).contains x))).dedup := by
        simp [listAt, hv]
      rw [hlist]
      simp only [List.mem_append, List.mem_dedup, List.mem_filter, List.contains,
        Bool.not_eq_true, ← Bool.not_eq_true, List.elem_iff]
      constructor
      · rintro (h | ⟨h, -⟩)
        · exact Or.inl h
        · exact Or.inr h
      · rintro (h | h)
        · exact Or.inl h
        · by_cases hx : v ∈ listAt old k
          · exact Or.inl hx
          · refine Or.inr ⟨h, ?_⟩
            simp [List.elem_iff, hx]
    · have hv := hlook k
      rw [if_neg hkm] at hv
      rw [mem_mergeKeys_iff, not_or] at hkm
      have h1 : listAt m k = [] := by simp [listAt, hv]
      have h2 : listAt old k = [] := by
        simp [listAt, alookup_eq_none_of_not_mem old k hkm.1]
      have h3 : listAt new k = [] := by
        simp [listAt, alookup_eq_none_of_not_mem new k hkm.2]
      simp [h1, h2, h3]

theorem swSet_singleton {α : Type} (max_size : Nat)
    (k : String) (v v' : α) : swSet max_size [(k, v)] k v' = [(k, v')] := by
  rw [swSet]
  by_cases h : max_size ≤ 1
  · rw [evictLoop]
    simp only [List.length_nil, Nat.zero_add, if_pos h]
    simp [evictLoop, dictSet]
  · rw [evictLoop]
    simp only [List.length_nil, Nat.zero_add, if_neg h]
    simp [dictSet]

theorem processRows_singleton_go (cfg : IndexerConf) (u : String) :
    ∀ (rows : List Row) (D : Doc) (n : Nat), WfDoc D →
    (∀ r ∈ rows, ∃ (b : BindingV) (pj : Projected),
      alookup r ID = some (some b) ∧ b.btype = "uri" ∧
      projectBody cfg initState r = some pj ∧ pj.uri = u) →
    ∃ msgs final,
      processRows cfg ⟨[docUuid u], [(docUuid u, D)], [], 0, n⟩ rows =
        some (msgs, ⟨[docUuid u], [(docUuid u, final)], [], 0, n + rows.length⟩) ∧
      WfDoc final ∧
      (rows = [] → msgs = [] ∧ final = D) ∧
      (rows ≠ [] → msgs.getLast? = some (Msg.index cfg.index cfg.doc_type u final)) ∧
      (∀ k, k ≠ "@id" → ∀ v, v ∈ listAt final k ↔
        (v ∈ listAt D k ∨ ∃ r ∈ rows, ∃ pj, projectBody cfg initState r = some pj ∧
          v ∈ listAt pj.body k)) := by
  intro rows
  induction rows with
  | nil =>
      intro D n hD _
      refine ⟨[], D, by simp [processRows], hD, fun _ => ⟨rfl, rfl⟩,
        fun hne => absurd rfl hne, ?_⟩
      intro k hk v
      simp
  | cons r rs ih =>
      intro D n hD hrow
      obtain ⟨b, pj, hid, hturi, hpj0, hpuri⟩ := hrow r (List.mem_cons_self r rs)
      have hproj := projectBody_uri_state cfg ⟨[docUuid u], [(docUuid u, D)], [], 0, n⟩
        initState r b pj hid hturi hpj0
      have hwB : WfDoc pj.body := projectBody_body_wf cfg initState r pj hpj0
      obtain ⟨M, hM, hMwf, hMmem⟩ := merge_wf D pj.body hD hwB
      have hDne : D ≠ [] := WfDoc_ne_nil D hD
      have hstep : binding_as_doc cfg ⟨[docUuid u], [(docUuid u, D)], [], 0, n⟩ r =
          some (Msg.index cfg.index cfg.doc_type u M,
            ⟨[docUuid u], [(docUuid u, M)], [], 0, n + 1⟩) := by
        rw [binding_as_doc]
        simp [hproj, hpuri, hM, hDne, swSet_singleton]
      obtain ⟨msgs', final, hrun, hfwf, hnil, hlast, hmem⟩ :=
        ih M (n + 1) hMwf (fun r' hr' => hrow r' (List.mem_cons_of_mem r hr'))
      refine ⟨Msg.index cfg.index cfg.doc_type u M :: msgs', final, ?_, hfwf, ?_, ?_, ?_⟩
      · rw [processRows]
        simp only [hstep, hrun]
        rw [show n + (r :: rs).length = n + 1 + rs.length from by simp; omega]
      · intro h
        cases h
      · intro _
        cases hrs : rs with
        | nil =>
            subst hrs
            obtain ⟨rfl, rfl⟩ := hnil rfl
            rfl
        | cons r2 rs2 =>
            subst hrs
            have hlast' := hlast (by simp)
            cases msgs' with
            | nil => simp at hlast'
            | cons m2 ms2 =>
                rw [List.getLast?_cons_cons]
                exact hlast'
      · intro k hk v
        rw [hmem k hk v, hMmem k hk v]
        constructor
        · rintro ((h | h) | ⟨r', hr', pj', hpj', hv⟩)
          · exact Or.inl h
          · exact Or.inr ⟨r, List.mem_cons_self r rs, pj, hpj0, h⟩
          · exact Or.inr ⟨r', List.mem_cons_of_mem r hr', pj', hpj', hv⟩
        · rintro (h | ⟨r', hr', pj', hpj', hv⟩)
          · exact Or.inl (Or.inl h)
          · rcases List.mem_cons.mp hr' with rfl | hr''
            · have hpp : pj' = pj := by
                rw [hpj0] at hpj'
                exact (Option.some_inj.mp hpj').symm
              subst hpp
              exact Or.inl (Or.inr hv)
            · exact Or.inr ⟨r', hr'', pj', hpj', hv⟩

theorem processRows_from_init (cfg : IndexerConf) (u : String) (rows : List Row)
    (hne : rows ≠ [])
    (hrow : ∀ r ∈ rows, ∃ (b : BindingV) (pj : Projected),
      alookup r ID = some (some b) ∧ b.btype = "uri" ∧
      projectBody cfg initState r = some pj ∧ pj.uri = u) :
    ∃ msgs final,
      processRows cfg initState rows =
        some (msgs, ⟨[docUuid u], [(docUuid u, final)], [], 0, rows.length⟩) ∧
      WfDoc final ∧
      msgs.getLast? = some (Msg.index cfg.index cfg.doc_type u final) ∧
      (∀ k, k ≠ "@id" → ∀ v, v ∈ listAt final k ↔
        ∃ r ∈ rows, ∃ pj, projectBody cfg initState r = some pj ∧ v ∈ listAt pj.body k) := by
  cases rows with
  | nil => exact absurd rfl hne
  | cons r rs =>
      obtain ⟨b, pj, hid, hturi, hpj0, hpuri⟩ := hrow r (List.mem_cons_self r rs)
      have hproj1 := projectBody_uri_state cfg initState initState r b pj hid hturi hpj0
      have hpj_eq : (⟨pj.uri, pj.body, pj.params,
          { initState with count := initState.count + 1 }⟩ : Projected) = pj :=
        Option.some_inj.mp (hproj1.symm.trans hpj0)
      have hpst : pj.st = ⟨[], [], [], 0, 1⟩ := by
        rw [← hpj_eq]
        rfl
      have hwB : WfDoc pj.body := projectBody_body_wf cfg initState r pj hpj0
      have hstep : binding_as_doc cfg initState r =
          some (Msg.index cfg.index cfg.doc_type u pj.body,
            ⟨[docUuid u], [(docUuid u, pj.body)], [], 0, 1⟩) := by
        rw [binding_as_doc]
        simp [hpj0, hpst, hpuri, swSet, evictLoop, dictSet]
      obtain ⟨msgs', final, hrun, hfwf, hnil, hlast, hmem⟩ :=
        processRows_singleton_go cfg u rs pj.body 1 hwB
          (fun r' hr' => hrow r' (List.mem_cons_of_mem r hr'))
      refine ⟨Msg.index cfg.index cfg.doc_type u pj.body :: msgs', final, ?_, hfwf, ?_, ?_⟩
      · rw [processRows]
        simp only [hstep, hrun]
        rw [show (r :: rs).length = 1 + rs.length from by simp; omega]
      · cases hrs : rs with
        | nil =>
            subst hrs
            obtain ⟨rfl, rfl⟩ := hnil rfl
            rfl
        | cons r2 rs2 =>
            subst hrs
            have hlast' := hlast (by simp)
            cases msgs' with
            | nil => simp at hlast'
            | cons m2 ms2 =>
                rw [List.getLast?_cons_cons]
                exact hlast'
      · intro k hk v
        rw [hmem k hk v]
        constructor
        · rintro (h | ⟨r', hr', pj', hpj', hv⟩)
          · exact ⟨r, List.mem_cons_self r rs, pj, hpj0, h⟩
          · exact ⟨r', List.mem_cons_of_mem r hr', pj', hpj', hv⟩
        · rintro ⟨r', hr', pj', hpj', hv⟩
          rcases List.mem_cons.mp hr' with rfl | hr''
          · have hpp : pj' = pj := by
              rw [hpj0] at hpj'
              exact (Option.some_inj.mp hpj').symm
            subst hpp
            exact Or.inl hv
          · exact Or.inr ⟨r', hr'', pj', hpj', hv⟩

/-- **C6.** For every sequence of rows describing the same entity (all
rows bind the reserved id variable to a uri resolving to `u`) processed
from a fresh run state, the run succeeds, the entity stays cache-resident
throughout, and the final document held for the entity (also carried by
the last emitted Replace) has, at each property key, a value set equal to
the union of the values contributed by the individual rows' projected
bodies; consequently processing any permutation of the rows yields a
final document with exactly the same value sets. -/
theorem C6_order_independent_merge (cfg : IndexerConf) (u : String) (rows rows' : List Row)
    (hne : rows ≠ []) (hperm : rows'.Perm rows)
    (hrow : ∀ r ∈ rows, ∃ (b : BindingV) (pj : Projected),
      alookup r ID = some (some b) ∧ b.btype = "uri" ∧
      projectBody cfg initState r = some pj ∧ pj.uri = u) :
    ∃ msgs s final msgs' s' final',
      processRows cfg initState rows = some (msgs, s) ∧
      alookup s.cache (docUuid u) = some final ∧
      msgs.getLast? = some (Msg.index cfg.index cfg.doc_type u final) ∧
      (∀ k, k ≠ "@id" → ∀ v, v ∈ listAt final k ↔
        ∃ r ∈ rows, ∃ pj, projectBody cfg initState r = some pj ∧ v ∈ listAt pj.body k) ∧
      processRows cfg initState rows' = some (msgs', s') ∧
      alookup s'.cache (docUuid u) = some final' ∧
      (∀ k, k ≠ "@id" → ∀ v, v ∈ listAt final' k ↔ v ∈ listAt final k) := by
  have hne' : rows' ≠ [] := by
    intro h
    apply hne
    have hl := hperm.length_eq
    rw [h] at hl
    exact List.eq_nil_of_length_eq_zero (by simpa using hl.symm)
  have hrow' : ∀ r ∈ rows', ∃ (b : BindingV) (pj : Projected),
      alookup r ID = some (some b) ∧ b.btype = "uri" ∧
      projectBody cfg initState r = some pj ∧ pj.uri = u :=
    fun r hr => hrow r (hperm.mem_iff.mp hr)
  obtain ⟨msgs, final, hrun, hfwf, hlast, hmem⟩ := processRows_from_init cfg u rows hne hrow
  obtain ⟨msgs', final', hrun', hfwf', hlast', hmem'⟩ :=
    processRows_from_init cfg u rows' hne' hrow'
  refine ⟨msgs, _, final, msgs', _, final', hrun, by simp, hlast, hmem, hrun', by simp, ?_⟩
  intro k hk v
  rw [hmem' k hk v, hmem k hk v]
  constructor
  · rintro ⟨r, hr, rest⟩
    exact ⟨r, hperm.mem_iff.mp hr, rest⟩
  · rintro ⟨r, hr, rest⟩
    exact ⟨r, hperm.mem_iff.mpr hr, rest⟩

/-- Concrete instantiation of C6: the same uri row twice. -/
theorem C6_order_independent_merge_witness :
    processRows ⟨"i", "t", none, [], 1000⟩ initState
      [[(ID, some ⟨"uri", some "u"⟩)], [(ID, some ⟨"uri", some "u"⟩)]] ≠ none := by
  obtain ⟨msgs, s, final, msgs', s', final', hrun, -⟩ :=
    C6_order_independent_merge ⟨"i", "t", none, [], 1000⟩ "u"
      [[(ID, some ⟨"uri", some "u"⟩)], [(ID, some ⟨"uri", some "u"⟩)]]
      [[(ID, some ⟨"uri", some "u"⟩)], [(ID, some ⟨"uri", some "u"⟩)]]
      (by simp) (List.Perm.refl _)
      (by
        intro r hr
        simp only [List.mem_cons, List.not_mem_nil, or_false] at hr
        rcases hr with rfl | rfl <;>
          exact ⟨⟨"uri", some "u"⟩, ⟨"u", [("@id", PyVal.vstr "u")], [], ⟨[], [], [], 0, 1⟩⟩,
            rfl, rfl, rfl, rfl⟩)
  simp [hrun]

end PopES
